import Mathlib

/-!
# Verification of the XI-IO Deterministic Action Core

A shallow embedding of the Python sources (`xi_utils.py`, `framework.py`,
`ledger_guard.py`, `optimized_orchestrator.py`, `xi_cli.py`) together with
proofs and refutations of the specified properties.

Modelling conventions:
* Filesystem paths are lists of components of an absolute path
  (`List String`); `..` is an ordinary component, exactly as in
  `pathlib.PurePath` arithmetic, which never normalizes `..`.
* The operating system is an oracle (`FS`): which paths are symlinks
  (`os.path.is_symlink`), how a path resolves (`Path.resolve`, `none`
  models the exception raised e.g. on a symlink loop), and which paths
  hold which file contents.
* SHA-256 is an abstract parameter `H : String → String`; the code only
  ever feeds it strings and compares the resulting digests.
* Wall-clock values (`mtime`, timing) are not modelled; receipts carry
  the fields the claims speak about.
* Python strings are modelled over their ASCII fragment: `str.casefold`
  coincides with ASCII lowercasing there, and JSON string serialization
  needs no escapes on the concrete values used.
-/

namespace Xio

/-! ## Receipts (`framework.ActionReceipt.create`) -/

/-- The structured content of `ActionReceipt.create`.  The Python function
produces a JSON string; we keep the record.  `mtime` (a wall-clock read,
`time.time()`) is not modelled.  Optional fields model the extra `kwargs`
merged by `receipt.update`. -/
structure Receipt where
  op : String
  path : String
  ok : Bool
  bytes : Nat
  sha256 : String
  exit_code : Int
  policy : String
  reason : Option String
  stdout : Option String
  stderr : Option String
  stdout_len : Option Nat
  stderr_len : Option Nat
  success : Option Bool
  deriving Repr, DecidableEq

/-- `ActionReceipt.create(op, path, ok)` with no extra kwargs: defaults
`bytes=0`, `sha256="0"*64`, `exit_code = 0 if ok else 1`, `policy="allowed"`. -/
def baseReceipt (op path : String) (ok : Bool) : Receipt :=
  ⟨op, path, ok, 0, String.mk (List.replicate 64 (Char.ofNat 48)),
   if ok then 0 else 1, "allowed", none, none, none, none, none, none⟩

/-- `ActionReceipt.create(op, filename, False, exit_code=13, policy="blocked", reason=r)`. -/
def blockedReceipt (op path r : String) : Receipt :=
  { baseReceipt op path false with exit_code := 13, policy := "blocked", reason := some r }

/-! ## Paths -/

/-- The forms a `filename` argument can take, as discriminated by
`XIUtils._get_path`: an absolute path, a path relative to the working
directory, or a `~/`-prefixed path. -/
inductive PyPath where
  | abs (parts : List String)
  | rel (parts : List String)
  | homeRel (parts : List String)
  deriving Repr, DecidableEq

/-- `XIUtils._get_path`: `~` expands to the home directory, absolute paths
stand, relative paths are joined onto the working directory. -/
def getPath (home wd : List String) : PyPath → List String
  | .abs p => p
  | .rel p => wd ++ p
  | .homeRel p => home ++ p

/-- `Path(working_dir) / filename` (used verbatim by `patch_file`):
`pathlib` substitutes absolute arguments and does not expand `~`, so a
`~/`-form keeps its literal `~` component. -/
def joinPath (wd : List String) : PyPath → List String
  | .abs p => p
  | .rel p => wd ++ p
  | .homeRel p => wd ++ "~" :: p

/-- `str(filename)` as it appears in a receipt's `path` field. -/
def PyPath.render : PyPath → String
  | .abs p => "/" ++ String.intercalate "/" p
  | .rel p => String.intercalate "/" p
  | .homeRel p => "~/" ++ String.intercalate "/" p

/-! ## The operating-system oracle -/

/-- The filesystem as the Python code observes it.
`isSymlink p` is `Path(p).is_symlink()`; `resolve p` is `Path(p).resolve()`
(`none` when resolution raises, e.g. on a symlink loop); `files p` is the
content of the regular file at `p`, if any. -/
structure FS where
  isSymlink : List String → Bool
  resolve : List String → Option (List String)
  files : List String → Option String

/-- Replace the content of one file (the net effect of the
write-temp/fsync/`os.replace` dance on a reliable disk). -/
def FS.setFile (fs : FS) (p : List String) (content : String) : FS :=
  { fs with files := fun q => if q = p then some content else fs.files q }

/-- Remove a file (`Path.unlink`). -/
def FS.delFile (fs : FS) (p : List String) : FS :=
  { fs with files := fun q => if q = p then none else fs.files q }

/-! ## Policy A (`XIUtils._is_in_bounds`) -/

/-- The component-wise symlink walk of `_is_in_bounds` step 3:
`check_path` starts at the resolved working directory and accretes one
component of `rel_path` at a time; any symlink rejects. -/
def symlinkHit (fs : FS) : List String → List String → Bool
  | _, [] => false
  | base, p :: ps =>
    let b := base ++ [p]
    if fs.isSymlink b then true else symlinkHit fs b ps

/-- `Path.relative_to`: purely lexical prefix stripping on components
(`..` components are kept, never normalized). -/
def relTo (t base : List String) : Option (List String) :=
  if base <+: t then some (t.drop base.length) else none

/-- `XIUtils._is_in_bounds` on an already-constructed absolute target
(the methods pass a `Path`, which `_get_path` returns unchanged).
Order of checks follows the source: resolve the working directory
(exceptions yield `False`), the sovereign `~/.xi-io` exemption, lexical
`relative_to`, the component-wise symlink walk, and the final
resolve-and-containment check. -/
def isInBoundsParts (fs : FS) (home wd target : List String) : Bool :=
  match fs.resolve wd with
  | none => false
  | some awd =>
    let homeXi := home ++ [".xi-io"]
    if homeXi <+: target then true
    else
      match relTo target awd with
      | none => false
      | some rel =>
        if symlinkHit fs awd rel then false
        else
          match fs.resolve target with
          | none => false
          | some r => awd <+: r

/-- `XIUtils._is_safe`: in bounds, and not quarantined when a context
manager is present (`ctx = none` models `self.context_manager is None`). -/
def isSafeParts (fs : FS) (ctx : Option (List String → Bool))
    (home wd target : List String) : Bool :=
  if ¬ isInBoundsParts fs home wd target then false
  else
    match ctx with
    | none => true
    | some quarantined => ¬ quarantined target

/-! ## Executor operations (`xi_utils.XIUtils`) -/

/-- `f"{filename}.backup"` joined under the working directory, as
`backup_file` computes its destination. -/
def backupTarget (wd : List String) (name : PyPath) : List String :=
  let addSuffix : List String → List String := fun p =>
    match p.getLast? with
    | none => [".backup"]
    | some last => p.dropLast ++ [last ++ ".backup"]
  match name with
  | .abs p => addSuffix p
  | .rel p => wd ++ addSuffix p
  | .homeRel p => wd ++ addSuffix ("~" :: p)

/-- `XIUtils.backup_file`: copy `wd / filename` to `wd / filename.backup`
when the source exists; otherwise leave the filesystem alone. -/
def backupFile (fs : FS) (wd : List String) (name : PyPath) : FS :=
  let src := joinPath wd name
  match fs.files src with
  | none => fs
  | some content => fs.setFile (backupTarget wd name) content

/-- `XIUtils.write_file`.  Guards first (Policy A, then quarantine), then
the atomic write: backup when the target exists, replace the content,
post-write verification against the intended hash (which on our reliable
disk model always passes), and the success receipt carrying the byte
length and the digest `H content`. -/
def writeFile (H : String → String) (fs : FS) (ctx : Option (List String → Bool))
    (home wd : List String) (name : PyPath) (content : String) : FS × Receipt :=
  let filepath := getPath home wd name
  if ¬ isSafeParts fs ctx home wd filepath then
    if ¬ isInBoundsParts fs home wd filepath then
      (fs, blockedReceipt "write" name.render "POLICY_A_REJECTION")
    else
      (fs, blockedReceipt "write" name.render "QUARANTINE_REJECTION")
  else
    let fs1 := if (fs.files filepath).isSome then backupFile fs wd name else fs
    let fs2 := fs1.setFile filepath content
    if fs2.files filepath ≠ some content then
      (fs2, { baseReceipt "write" name.render false with
                exit_code := 12, reason := some "HARDWARE_VERIFICATION_FAILED" })
    else
      (fs2, { baseReceipt "write" name.render true with
                bytes := content.length, sha256 := H content })

/-- `XIUtils.patch_file`.  Note the target is `Path(working_dir) / filename`,
not `_get_path`.  Missing needle yields the `STALE_PLAN` receipt
(`exit_code=14`); a missing file raises inside the `try`, producing the
generic `exit_code=1` receipt. -/
def patchFile (H : String → String) (fs : FS) (ctx : Option (List String → Bool))
    (home wd : List String) (name : PyPath) (findText replaceText : String) :
    FS × Receipt :=
  let filepath := joinPath wd name
  if ¬ isSafeParts fs ctx home wd filepath then
    if ¬ isInBoundsParts fs home wd filepath then
      (fs, blockedReceipt "patch" name.render "POLICY_A_REJECTION")
    else
      (fs, blockedReceipt "patch" name.render "QUARANTINE_REJECTION")
  else
    match fs.files filepath with
    | none =>
      (fs, { baseReceipt "patch" name.render false with
               exit_code := 1, reason := some "FileNotFoundError" })
    | some old =>
      if ¬ (findText.data <:+: old.data) then
        (fs, { baseReceipt "patch" name.render false with
                 exit_code := 14, reason := some "STALE_PLAN" })
      else
        let newContent := old.replace findText replaceText
        let fs1 := backupFile fs wd name
        let fs2 := fs1.setFile filepath newContent
        if fs2.files filepath ≠ some newContent then
          (fs2, { baseReceipt "patch" name.render false with
                    exit_code := 12, reason := some "HARDWARE_VERIFICATION_FAILED" })
        else
          (fs2, { baseReceipt "patch" name.render true with
                    bytes := newContent.length, sha256 := H newContent })

/-- `XIUtils.delete_file`: guards, missing-file receipt, else backup and
unlink. -/
def deleteFile (fs : FS) (ctx : Option (List String → Bool))
    (home wd : List String) (name : PyPath) : FS × Receipt :=
  let filepath := getPath home wd name
  if ¬ isSafeParts fs ctx home wd filepath then
    if ¬ isInBoundsParts fs home wd filepath then
      (fs, blockedReceipt "delete" name.render "POLICY_A_REJECTION")
    else
      (fs, blockedReceipt "delete" name.render "QUARANTINE_REJECTION")
  else
    match fs.files filepath with
    | none =>
      (fs, { baseReceipt "delete" name.render false with
               exit_code := 1, reason := some "FileNotFound" })
    | some _ =>
      let fs1 := backupFile fs wd name
      ((fs1.delFile filepath), baseReceipt "delete" name.render true)

/-! ## `XIUtils.run_command` -/

/-- What `subprocess.run(command, cwd=…, shell=…, capture_output=True,
text=True, timeout=60)` can do: finish with an exit status, raise
`TimeoutExpired` after the 60 s wall-clock budget (killing the child), or
raise some other exception. -/
inductive RunOutcome where
  | completed (returncode : Int) (stdout stderr : String)
  | timedOut (msg : String)
  | errored (msg : String)
  deriving Repr, DecidableEq

/-- `XIUtils.run_command`.  The success path surfaces the child's exit
code; every exception — `TimeoutExpired` included — is caught by the one
`except Exception` clause and reported as `exit_code=1` with the
stringified exception as reason. -/
def runCommand (cmd : String) (outcome : RunOutcome) : Receipt :=
  match outcome with
  | .completed rc out err =>
    { baseReceipt "run" cmd (rc = 0) with
        exit_code := rc, stdout := some out, stderr := some err,
        stdout_len := some out.length, stderr_len := some err.length,
        success := some (rc = 0) }
  | .timedOut msg =>
    { baseReceipt "run" cmd false with exit_code := 1, reason := some msg }
  | .errored msg =>
    { baseReceipt "run" cmd false with exit_code := 1, reason := some msg }

/-! ## Hash-chained audit ledger
(`ledger_guard.LedgerGuard`, `framework.IndustrialAuditService`) -/

/-- A ledger entry as built by `IndustrialAuditService.log_action` and as
stored in `production_ledger.json`.  `chain_hash = none` models a legacy
entry whose dict lacks the `"chain_hash"` key.  Metadata is modelled as a
flat string-to-string dict, which covers the serialization structure the
claims depend on. -/
structure LedgerEntry where
  id : String
  timestamp : Nat
  user : String
  action : String
  target : String
  project : String
  metadata : List (String × String)
  chain_hash : Option String
  deriving Repr, DecidableEq

/-- Insert a key/value pair into a key-sorted list (ascending). -/
def insertSortedKV (a : String × String) : List (String × String) → List (String × String)
  | [] => [a]
  | b :: rest => if a.1 ≤ b.1 then a :: b :: rest else b :: insertSortedKV a rest

/-- `sort_keys=True` on a flat dict: insertion sort by key (keys are
unique in a dict, so this agrees with any stable sort). -/
def sortByKey (l : List (String × String)) : List (String × String) :=
  l.foldr insertSortedKV []

/-- JSON string literal.  The model assumes content needing no JSON
escapes (all concrete values used satisfy this). -/
def jstr (s : String) : String := "\"" ++ s ++ "\""

/-- One `"key": value` pair with `json.dumps`' default separator
(`": "`, with a space). -/
def jpair (k v : String) : String := jstr k ++ ": " ++ v

/-- `json.dumps` of a flat string dict with `sort_keys=True` and default
separators (`", "` between items, `": "` after keys). -/
def dumpsMeta (m : List (String × String)) : String :=
  "\x7b" ++ String.intercalate ", " ((sortByKey m).map (fun kv => jpair kv.1 (jstr kv.2))) ++ "\x7d"

/-- `json.dumps(entry_without_chain_hash, sort_keys=True)`: the exact
string hashed by `log_action` (which dumps `full_entry` before the
`chain_hash` key is added) and recomputed by `verify_chain` (which dumps
the stored entry with the `chain_hash` key removed).  Sorted key order:
action, id, metadata, project, target, timestamp, user.  Default
separators — `", "` and `": "` both contain a space. -/
def dumpsEntrySansChain (e : LedgerEntry) : String :=
  "\x7b" ++ String.intercalate ", "
    [jpair "action" (jstr e.action),
     jpair "id" (jstr e.id),
     jpair "metadata" (dumpsMeta e.metadata),
     jpair "project" (jstr e.project),
     jpair "target" (jstr e.target),
     jpair "timestamp" (toString e.timestamp),
     jpair "user" (jstr e.user)] ++ "\x7d"

/-- The same entry serialized the way the specification's words demand:
sorted keys and *no insignificant whitespace* (compact separators `","`
and `":"`).  This definition follows the spec's words, not the source;
it exists to be compared against `dumpsEntrySansChain`. -/
def dumpsEntrySansChainCompact (e : LedgerEntry) : String :=
  let jp : String → String → String := fun k v => jstr k ++ ":" ++ v
  let meta := "\x7b" ++ String.intercalate ","
    ((sortByKey e.metadata).map (fun kv => jp kv.1 (jstr kv.2))) ++ "\x7d"
  "\x7b" ++ String.intercalate ","
    [jp "action" (jstr e.action),
     jp "id" (jstr e.id),
     jp "metadata" meta,
     jp "project" (jstr e.project),
     jp "target" (jstr e.target),
     jp "timestamp" (toString e.timestamp),
     jp "user" (jstr e.user)] ++ "\x7d"

/-- `LedgerGuard.chain_hash`: `SHA256(f"{prev_hash}:{entry_data}")`, with
the hash abstracted as `H`. -/
def chainHashF (H : String → String) (entryData prevHash : String) : String :=
  H (prevHash ++ ":" ++ entryData)

/-- `LedgerGuard.get_last_hash`: the `chain_hash` of the last entry;
`"GENESIS"` when the ledger is empty *or* when the last entry lacks the
key (`last.get("chain_hash", "GENESIS")`). -/
def getLastHash (ledger : List LedgerEntry) : String :=
  match ledger.getLast? with
  | none => "GENESIS"
  | some e => e.chain_hash.getD "GENESIS"

/-- The dict `log_action` receives, after its `.get(…, default)`
normalization (`user`/`action`/`target`/`project`/`metadata`). -/
structure LogInput where
  user : String
  action : String
  target : String
  project : String
  metadata : List (String × String)
  deriving Repr, DecidableEq

/-- `json.dumps(entry)` of the raw input dict (insertion order, default
separators), as consumed by the entry-id digest. -/
def dumpsInput (inp : LogInput) : String :=
  "\x7b" ++ String.intercalate ", "
    [jpair "user" (jstr inp.user),
     jpair "action" (jstr inp.action),
     jpair "target" (jstr inp.target),
     jpair "project" (jstr inp.project),
     jpair "metadata" (dumpsMeta inp.metadata)] ++ "\x7d"

/-- The entry as first constructed by `log_action`, before `chain_hash`
is added: id derived from the input dump and the timestamp. -/
def mkBaseEntry (H : String → String) (ts : Nat) (inp : LogInput) : LedgerEntry :=
  { id := "AL-" ++ (H (dumpsInput inp ++ "-" ++ toString ts)).take 12 ++ "-" ++ toString ts
    timestamp := ts
    user := inp.user
    action := inp.action
    target := inp.target
    project := inp.project
    metadata := inp.metadata
    chain_hash := none }

/-- The entry with its chain hash: `H(prev ++ ":" ++ dumps(entry))` where
the dump happens while the entry still lacks the `chain_hash` key. -/
def mkFullEntry (H : String → String) (ts : Nat) (inp : LogInput) (prev : String) :
    LedgerEntry :=
  let base := mkBaseEntry H ts inp
  { base with chain_hash := some (chainHashF H (dumpsEntrySansChain base) prev) }

/-- `IndustrialAuditService.log_action`: link to `get_last_hash`, append,
and cap at the most recent 1000 entries (`ledger[-1000:]` — a bare slice,
nothing else is touched).  Returns the list handed to
`LedgerGuard.safe_write`. -/
def logAction (H : String → String) (ts : Nat) (inp : LogInput)
    (ledger : List LedgerEntry) : List LedgerEntry :=
  let full := mkFullEntry H ts inp (getLastHash ledger)
  let ledger1 := ledger ++ [full]
  if 1000 < ledger1.length then ledger1.drop (ledger1.length - 1000) else ledger1

/-- The result record of `LedgerGuard.verify_chain`. -/
structure VerifyResult where
  valid : Bool
  entries_checked : Nat
  first_broken : Option Nat
  unchained : Nat
  deriving Repr, DecidableEq

/-- The verification loop: `prev` starts at `"GENESIS"`, legacy entries
are skipped (counted in `unchained`) without advancing `prev`, and the
first mismatch stops with `first_broken = i`. -/
def verifyGo (H : String → String) (total : Nat) :
    List LedgerEntry → Nat → String → Nat → VerifyResult
  | [], _, _, unchained => ⟨true, total, none, unchained⟩
  | e :: rest, i, prev, unchained =>
    match e.chain_hash with
    | none => verifyGo H total rest (i + 1) prev (unchained + 1)
    | some stored =>
      if stored ≠ chainHashF H (dumpsEntrySansChain { e with chain_hash := none }) prev then
        ⟨false, i + 1, some i, unchained⟩
      else
        verifyGo H total rest (i + 1) stored unchained

/-- `LedgerGuard.verify_chain`. -/
def verifyChain (H : String → String) (ledger : List LedgerEntry) : VerifyResult :=
  if ledger = [] then ⟨true, 0, none, 0⟩
  else verifyGo H ledger.length ledger 0 "GENESIS" 0

/-- The hash the chain would continue from after `l`, having started at
`prev` (mirrors `get_last_hash` but keeps the starting point abstract). -/
def chainEnd (prev : String) (l : List LedgerEntry) : String :=
  match l.getLast? with
  | none => prev
  | some e => e.chain_hash.getD "GENESIS"

/-- `l` is a well-formed hash chain whose first link hashes against
`prev`: every entry carries a `chain_hash` equal to the recomputation
`verify_chain` performs. -/
def chainedFrom (H : String → String) : String → List LedgerEntry → Prop
  | _, [] => True
  | prev, e :: rest =>
    ∃ s, e.chain_hash = some s ∧
      s = chainHashF H (dumpsEntrySansChain { e with chain_hash := none }) prev ∧
      chainedFrom H s rest

/-! ## Claim normalization (`OptimizedOrchestrator._normalize_claim`)

Strings are modelled as `List Char` over the ASCII fragment, where
Python's `str.casefold` agrees with `Char.toLower` and the default
`str.split`/`str.strip` whitespace classes are the ASCII ones. -/

/-- Python whitespace (`str.split()` / `str.strip()` with no argument),
ASCII fragment. -/
def isPyWs (c : Char) : Bool :=
  c == ' ' || c == '\t' || c == '\n' || c == '\r' || c == Char.ofNat 11 || c == Char.ofNat 12

/-- Strip matching characters from the right end (`str.rstrip`). -/
def rstripP (p : Char → Bool) (l : List Char) : List Char :=
  (l.reverse.dropWhile p).reverse

/-- Strip matching characters from both ends (`str.strip(chars)`). -/
def stripP (p : Char → Bool) (l : List Char) : List Char :=
  rstripP p (l.dropWhile p)

/-- `str.split()`: maximal runs of non-whitespace, empties dropped.
(Structural formulation: a non-whitespace character either starts a new
word — when at the end or followed by whitespace — or extends the word
that follows it.) -/
def pywords : List Char → List (List Char)
  | [] => []
  | c :: cs =>
    if isPyWs c then pywords cs
    else
      match cs, pywords cs with
      | [], _ => [[c]]
      | d :: _, ws =>
        if isPyWs d then [c] :: ws
        else
          match ws with
          | [] => [[c]]
          | w :: rest => (c :: w) :: rest

/-- `' '.join(words)`: single spaces between words. -/
def joinWords : List (List Char) → List Char
  | [] => []
  | [w] => w
  | w :: ws => w ++ ' ' :: joinWords ws

/-- The punctuation set stripped from claim edges:
`'.,;:!?"\'-'`. -/
def isClaimPunct (c : Char) : Bool :=
  c == '.' || c == ',' || c == ';' || c == ':' || c == '!' || c == '?' ||
  c == '"' || c == Char.ofNat 39 || c == '-'

/-- `_normalize_claim` on character lists, in source order: strip
whitespace, collapse internal whitespace (`' '.join(s.split())`),
casefold, then strip edge punctuation. -/
def normalizeClaimL (l : List Char) : List Char :=
  let s1 := stripP isPyWs l
  let s2 := joinWords (pywords s1)
  let s3 := s2.map Char.toLower
  stripP isClaimPunct s3

/-- `OptimizedOrchestrator._normalize_claim`. -/
def normalizeClaim (s : String) : String :=
  String.mk (normalizeClaimL s.data)

/-! ## Ensemble adjudication (`OptimizedOrchestrator._adjudicate_claims`)

Confidences are modelled as rationals; `round(x, 3)` is modelled as
rational rounding (IEEE float artifacts are outside the model and
outside every claim). -/

/-- Floor of a rational (`⌊q⌋`), written out with floor-division so it
evaluates inside the kernel. -/
def ratFloor (q : ℚ) : ℤ := Int.fdiv q.num (q.den : ℤ)

/-- `round(x, 3)`: round to three decimals (half rounds up; IEEE float
artifacts and banker's rounding at exact ties are outside the model and
outside every claim). -/
def round3 (q : ℚ) : ℚ := ((ratFloor (q * 1000 + 1 / 2)) : ℚ) / 1000

/-- A validated claim record `{claim, type, confidence, agent}` as
accumulated by `_extract_claims`. -/
structure RawClaim where
  claim : String
  type : String
  confidence : ℚ
  agent : String
  deriving Repr, DecidableEq

/-- A value of the `groups` dict: canonical text and type from the first
claim of the group, the distinct agents (a Python `set`, modelled as a
dedup-inserting list), and every confidence seen. -/
structure ClaimGroup where
  canonical : String
  type : String
  agents : List String
  confidences : List ℚ
  deriving Repr, DecidableEq

/-- One pass of the grouping loop body for a claim whose key is already
known: create the group on first sight, otherwise add the agent
(set semantics) and append the confidence. -/
def insertClaim (key : String) (c : RawClaim) :
    List (String × ClaimGroup) → List (String × ClaimGroup)
  | [] => [(key, ⟨c.claim, c.type, [c.agent], [c.confidence]⟩)]
  | (k, g) :: rest =>
    if k = key then
      (k, { g with
              agents := if c.agent ∈ g.agents then g.agents else g.agents ++ [c.agent],
              confidences := g.confidences ++ [c.confidence] }) :: rest
    else (k, g) :: insertClaim key c rest

/-- The grouping loop: keys are normalized claims, empty keys are
skipped (`if not key: continue`); the association list preserves dict
insertion order. -/
def buildGroups : List RawClaim → List (String × ClaimGroup) → List (String × ClaimGroup)
  | [], acc => acc
  | c :: cs, acc =>
    let key := normalizeClaim c.claim
    if key = "" then buildGroups cs acc
    else buildGroups cs (insertClaim key c acc)

/-- The per-group output record (`entry` in the partition loop). -/
structure GroupEntry where
  claim : String
  type : String
  frequency : Nat
  agents : List String
  mean_confidence : ℚ
  deriving Repr, DecidableEq

/-- Insert a string into a sorted list (ascending). -/
def insertSorted (a : String) : List String → List String
  | [] => [a]
  | b :: rest => if a ≤ b then a :: b :: rest else b :: insertSorted a rest

/-- `sorted(…)` on strings: insertion sort (equal keys are identical
strings, so this agrees with Python's stable sort). -/
def sortStrings (l : List String) : List String :=
  l.foldr insertSorted []

/-- Build the output record of one group: `frequency` is the size of the
agent set, agents are reported sorted, mean confidence rounded. -/
def mkGroupEntry (g : ClaimGroup) : GroupEntry :=
  ⟨g.canonical, g.type, g.agents.length, sortStrings g.agents,
   round3 (g.confidences.sum / (g.confidences.length : ℚ))⟩

/-- The partition loop: groups in insertion order, a group is promoted
exactly when its agent-set size reaches the threshold
(`freq >= threshold`). -/
def partitionGroups (threshold : Nat) :
    List (String × ClaimGroup) → List GroupEntry × List GroupEntry
  | [] => ([], [])
  | (_, g) :: rest =>
    let r := partitionGroups threshold rest
    let e := mkGroupEntry g
    if threshold ≤ e.frequency then (e :: r.1, r.2) else (r.1, e :: r.2)

/-- The grouping plus majority partition of `_adjudicate_claims`:
threshold `⌊n/2⌋ + 1`, intersection versus minority. -/
def adjudicatePartition (claims : List RawClaim) (totalAgents : Nat) :
    List GroupEntry × List GroupEntry :=
  partitionGroups (totalAgents / 2 + 1) (buildGroups claims [])

/-- The full adjudication outcome. -/
inductive AdjudicationResult where
  | halt (reason : String) (disagreements : List GroupEntry)
      (threshold totalAgents : Nat)
  | adjudicated (intersection minority : List GroupEntry) (confidence : ℚ)
      (totalAgents threshold : Nat)
  deriving Repr, DecidableEq

/-- `OptimizedOrchestrator._adjudicate_claims`: partition, the literal
`"not "`-prefix contradiction scan over promoted versus all claims, the
OP-11 halt conditions, and the aggregate confidence. -/
def adjudicateClaims (claims : List RawClaim) (totalAgents : Nat) : AdjudicationResult :=
  let threshold := totalAgents / 2 + 1
  let part := partitionGroups threshold (buildGroups claims [])
  let inter := part.1
  let minor := part.2
  let promotedKeys := inter.map (fun e => normalizeClaim e.claim)
  let allKeys := (inter ++ minor).map (fun e => normalizeClaim e.claim)
  let hasContra := promotedKeys.any (fun kp =>
    allKeys.any (fun ka =>
      ka = "not " ++ kp || (kp.startsWith "not " && ka = kp.drop 4)))
  if inter = [] || hasContra then
    .halt (if inter = [] then "Equilibrium not reached (OH001)"
           else "Contradictory claims in intersection")
          (if inter = [] then minor else inter) threshold totalAgents
  else
    let confValues := inter.map (fun e => e.mean_confidence)
    let overall := if confValues = [] then 0
                   else round3 (confValues.sum / (confValues.length : ℚ))
    .adjudicated inter minor overall totalAgents threshold

/-- Spec-side quantity for the claim "the number of distinct normalized
claim keys among the input claims", taken at the claim's words. -/
def distinctNormalizedKeyCount (claims : List RawClaim) : Nat :=
  ((claims.map (fun c => normalizeClaim c.claim)).dedup).length

/-- Spec-side quantity: distinct *nonempty* normalized keys (the amended
count). -/
def distinctNonemptyKeyCount (claims : List RawClaim) : Nat :=
  (((claims.map (fun c => normalizeClaim c.claim)).filter (fun k => k ≠ "")).dedup).length

/-! ## Mode governor (`xi_cli.GOVERNOR_RULES` and the enforcement block
of `execute_industrial_line`) -/

/-- `xi_cli.AgenticMode`. -/
inductive AgenticMode where
  | PLAN | ACT | DEBUG | CHAT | REVIEW
  deriving Repr, DecidableEq

/-- One value of the `GOVERNOR_RULES` dict. -/
structure GovRule where
  forbidden : List String
  message : String
  deriving Repr, DecidableEq

/-- A single apostrophe (kept out of string literals). -/
def sq : String := String.mk [Char.ofNat 39]

/-- `xi_cli.GOVERNOR_RULES`: entries exist for `PLAN` and `DEBUG` only. -/
def governorRules : AgenticMode → Option GovRule
  | .PLAN => some ⟨["write", "create", "edit", "patch", "delete", "run", "git", "purge", "archive"],
                   "Action prohibited in PLAN mode: \x7bcmd\x7d"⟩
  | .DEBUG => some ⟨["write", "create", "edit", "patch", "delete", "purge", "run", "git", "archive"],
                    "Tool " ++ sq ++ "\x7bcmd\x7d" ++ sq ++
                      " not available in DEBUG mode. (Read-only + Wargame execution only)"⟩
  | _ => none

/-- `xi_cli.EXIT_CODES`. -/
def exitCodes : List (String × Nat) :=
  [("OK", 0), ("ROUTE_ERR", 10), ("RECEIPT_MISSING", 11), ("HASH_MISMATCH", 12),
   ("POLICY_VIOLATION", 13), ("STALE_PLAN", 14), ("TIMEOUT", 15),
   ("CAP_REACHED", 16), ("STUB_DETECTED", 20)]

/-- `rules['message'].format(cmd=cmd)`. -/
def formatMsg (template cmd : String) : String :=
  template.replace "\x7bcmd\x7d" cmd

/-- What the governor block does with a command before dispatch. -/
inductive GovernorDecision where
  | proceed
  | raisePermissionError (msg : String)
  | refuseExit (code : Nat) (msg : String)
  deriving Repr, DecidableEq

/-- The enforcement block of `execute_industrial_line`:
`rules = GOVERNOR_RULES.get(mode, {})`; a forbidden command raises
`PermissionError` in PLAN and otherwise prints a refusal and exits with
`EXIT_CODES["POLICY_VIOLATION"]`.  Modes without an entry (ACT, CHAT,
REVIEW) fall through to dispatch. -/
def governorCheck (mode : AgenticMode) (cmd : String) : GovernorDecision :=
  match governorRules mode with
  | none => .proceed
  | some r =>
    if cmd ∈ r.forbidden then
      let msg := formatMsg r.message cmd
      if mode = AgenticMode.PLAN then .raisePermissionError msg
      else .refuseExit (((exitCodes.lookup "POLICY_VIOLATION").getD 0)) msg
    else .proceed

/-! ## Governed walker (`xi_cli._governed_recursive_count`) -/

/-- A directory tree as the walker observes it.  `sameDev` models
`entry.stat().st_dev == root_dev` (with stat errors folded in as
`false`, both cause the directory to be skipped); `readable` models
whether `os.scandir` succeeds on the directory. -/
inductive FTree where
  | file (name : String)
  | dir (name : String) (sameDev readable : Bool) (children : List FTree)

mutual
/-- Number of directory entries in a tree, root included. -/
def treeSize : FTree → Nat
  | .file _ => 1
  | .dir _ _ _ ch => 1 + forestSize ch

/-- Total size of a list of trees. -/
def forestSize : List FTree → Nat
  | [] => 0
  | t :: ts => treeSize t + forestSize ts
end

/-- The walker's pruned directory names. -/
def walkIgnores : List String :=
  [".git", "node_modules", "venv", ".venv", "__pycache__", "dist", "build",
   ".pytest_cache", ".mypy_cache"]

/-- The file filter: no extension set (or the falsy empty list) accepts
everything; the `__HIDDEN__` sentinel selects dotfiles; otherwise a
case-insensitive suffix test. -/
def extMatch (exts : Option (List String)) (name : String) : Bool :=
  match exts with
  | none => true
  | some [] => true
  | some es =>
    if "__HIDDEN__" ∈ es then name.startsWith "."
    else es.any (fun e => name.toLower.endsWith e.toLower)

/-- One `os.scandir` pass over a directory: matched file names in entry
order, and the child directories to push (ignored names and foreign
devices pruned), also in entry order. -/
def scanDir (exts : Option (List String)) : List FTree → List String × List (Bool × List FTree)
  | [] => ([], [])
  | .file n :: rest =>
    let r := scanDir exts rest
    if extMatch exts n then (n :: r.1, r.2) else r
  | .dir n sd rd ch :: rest =>
    let r := scanDir exts rest
    if n ∈ walkIgnores then r
    else if sd then (r.1, (rd, ch) :: r.2) else r

/-- The walker's result triple. -/
structure WalkResult where
  count : Nat
  samples : List String
  status : String
  deriving Repr, DecidableEq

/-- Termination measure for the stack. -/
def stackMeasure (st : List (Bool × List FTree)) : Nat :=
  (st.map (fun p => 2 * forestSize p.2 + 1)).sum

/-- The governed while-loop.  Guards — the time budget (modelled as an
oracle over the iteration counter) and the file cap — are tested when a
directory is *popped*, before it is scanned; all of a directory's
entries are then counted with no intervening guard.  The stack is kept
pop-from-the-front, so pushes are prepended reversed to model Python's
`append`/`pop()` pair. -/
def walkGo (tmOut : Nat → Bool) (exts : Option (List String)) (maxFiles : Nat) :
    List (Bool × List FTree) → Nat → Nat → List String → WalkResult
  | [], _, count, samples => ⟨count, samples, "OK"⟩
  | (readable, ds) :: rest, iter, count, samples =>
    if tmOut iter then ⟨count, samples, "TIMEOUT"⟩
    else if maxFiles ≤ count then ⟨count, samples, "MAX_REACHED"⟩
    else if readable then
      let scan := scanDir exts ds
      walkGo tmOut exts maxFiles (scan.2.reverse ++ rest) (iter + 1)
        (count + scan.1.length) (samples ++ scan.1.take (5 - samples.length))
    else walkGo tmOut exts maxFiles rest (iter + 1) count samples
  termination_by st _ _ _ => stackMeasure st
  decreasing_by
    · have h : ∀ l : List FTree, stackMeasure (scanDir exts l).2 ≤ 2 * forestSize l := by
        intro l
        induction l with
        | nil => simp [scanDir, stackMeasure]
        | cons t rest ih =>
          cases t with
          | file n =>
            simp only [scanDir]
            have heq : stackMeasure (if extMatch exts n
                then ((n :: (scanDir exts rest).1, (scanDir exts rest).2) :
                       List String × List (Bool × List FTree))
                else scanDir exts rest).2 = stackMeasure (scanDir exts rest).2 := by
              split <;> rfl
            rw [heq, forestSize, treeSize]
            omega
          | dir n sd rd ch =>
            simp only [scanDir]
            rw [forestSize, treeSize]
            split
            · omega
            · split
              · simp only [stackMeasure, List.map_cons, List.sum_cons]
                simp only [stackMeasure] at ih
                omega
              · omega
      have h2 := h ds
      simp only [stackMeasure, List.map_append, List.sum_append, List.map_reverse,
        List.sum_reverse, List.map_cons, List.sum_cons]
      simp only [stackMeasure] at h2
      omega
    · simp only [stackMeasure, List.map_cons, List.sum_cons]
      omega

/-- `xi_cli._governed_recursive_count`: the `os.stat` probe of the root,
then the governed walk seeded with the root directory. -/
def governedCount (tmOut : Nat → Bool) (exts : Option (List String)) (maxFiles : Nat)
    (rootStatOk rootReadable : Bool) (rootChildren : List FTree) : WalkResult :=
  if ¬ rootStatOk then ⟨0, [], "OS_ERROR"⟩
  else walkGo tmOut exts maxFiles [(rootReadable, rootChildren)] 0 0 []

/-- Number of files of a directory that pass the filter — the amount the
counter grows by when that directory is scanned. -/
def dirMatches (exts : Option (List String)) (ch : List FTree) : Nat :=
  (scanDir exts ch).1.length

mutual
/-- The largest per-directory match count anywhere inside one tree. -/
def treeMaxMatch (exts : Option (List String)) : FTree → Nat
  | .file _ => 0
  | .dir _ _ _ ch => max (dirMatches exts ch) (forestMaxMatch exts ch)

/-- The largest per-directory match count anywhere inside a forest. -/
def forestMaxMatch (exts : Option (List String)) : List FTree → Nat
  | [] => 0
  | t :: ts => max (treeMaxMatch exts t) (forestMaxMatch exts ts)
end

/-! ## Properties of canonical claim strings (used to settle the
normalization-projection law) -/

/-- Every whitespace character in the list is the plain space. -/
def allWsSpace (l : List Char) : Prop :=
  ∀ c ∈ l, isPyWs c = true → c = ' '

/-- No two adjacent spaces. -/
def noDoubleSpace (l : List Char) : Prop :=
  List.Chain' (fun a b => ¬ (a = ' ' ∧ b = ' ')) l

/-! ## Concrete fixtures used by witnesses and counterexamples -/

/-- A filesystem with no symlinks, trivial resolution, and no files. -/
def flatFS : FS := ⟨fun _ => false, fun p => some p, fun _ => none⟩

/-- A filesystem where `/w/link` is a symlink and every path other than
the workspace root resolves to `/w/inside` — i.e. the symlink points
back *inside* the workspace. -/
def symFS : FS :=
  ⟨fun p => p = ["w", "link"],
   fun p => if p = ["w"] then some ["w"] else some ["w", "inside"],
   fun _ => none⟩

/-- A fixed `log_action` input. -/
def demoInput : LogInput := ⟨"u", "a", "t", "p", []⟩

/-- A ledger entry with a stored chain hash `"x"`. -/
def xEntry : LedgerEntry := ⟨"E", 0, "u", "a", "t", "p", [], some "x"⟩

/-- A legacy ledger: one chained entry followed by one entry without a
`chain_hash` key. -/
def legacyLedger : List LedgerEntry :=
  [⟨"E0", 0, "u", "a", "t", "p", [], some "abc"⟩,
   ⟨"E1", 1, "u", "a", "t", "p", [], none⟩]

/-- Three agents, two of which assert the same claim up to
normalization. -/
def demoClaims : List RawClaim :=
  [⟨"X", "fact", 1, "a1"⟩, ⟨"x.", "fact", 1, "a2"⟩, ⟨"y", "observation", 1, "a3"⟩]

/-! # Theorems -/

/-! ## Policy A helpers -/

theorem isInBounds_false_of_outside (fs : FS) (home wd target : List String)
    (hwd : fs.resolve wd = some wd)
    (hsov : ¬ ((home ++ [".xi-io"]) <+: target))
    (hout : ∀ r, fs.resolve target = some r → ¬ (wd <+: r)) :
    isInBoundsParts fs home wd target = false := by
  simp only [isInBoundsParts, hwd]
  rw [if_neg hsov]
  cases hrel : relTo target wd with
  | none => rfl
  | some rel =>
    simp only
    split
    · rfl
    · cases hres : fs.resolve target with
      | none => rfl
      | some r => simp [hout r hres]

theorem isInBounds_false_of_symlink (fs : FS) (home wd target rel : List String)
    (hwd : fs.resolve wd = some wd)
    (hrel : target = wd ++ rel)
    (hsym : symlinkHit fs wd rel = true)
    (hsov : ¬ ((home ++ [".xi-io"]) <+: target)) :
    isInBoundsParts fs home wd target = false := by
  simp only [isInBoundsParts, hwd]
  rw [if_neg hsov]
  have hr : relTo target wd = some rel := by
    unfold relTo
    subst hrel
    rw [if_pos (List.prefix_append wd rel), List.drop_left]
  rw [hr]
  simp only [hsym]
  rfl

theorem isInBounds_sovereign (fs : FS) (home wd target awd : List String)
    (hwd : fs.resolve wd = some awd)
    (hsov : (home ++ [".xi-io"]) <+: target) :
    isInBoundsParts fs home wd target = true := by
  simp only [isInBoundsParts, hwd]
  rw [if_pos hsov]

theorem isSafe_false_of_notInBounds (fs : FS) (ctx : Option (List String → Bool))
    (home wd target : List String)
    (hb : isInBoundsParts fs home wd target = false) :
    isSafeParts fs ctx home wd target = false := by
  simp [isSafeParts, hb]

/-- C1 (confirmed): a mutating operation (write, patch, delete) whose
target resolves outside the workspace root and is not under the
sovereign `~/.xi-io` directory leaves the filesystem untouched and
returns the receipt `ok=false`, `exit_code=13`, `policy="blocked"`,
`reason="POLICY_A_REJECTION"`; in particular no such path can produce a
mutating receipt with `ok=true`. -/
theorem c1_policy_a_blocks_outside
    (H : String → String) (fs : FS) (ctx : Option (List String → Bool))
    (home wd : List String) (name : PyPath) (content findText replText : String)
    (hwd : fs.resolve wd = some wd)
    (hsovW : ¬ ((home ++ [".xi-io"]) <+: getPath home wd name))
    (houtW : ∀ r, fs.resolve (getPath home wd name) = some r → ¬ (wd <+: r))
    (hsovP : ¬ ((home ++ [".xi-io"]) <+: joinPath wd name))
    (houtP : ∀ r, fs.resolve (joinPath wd name) = some r → ¬ (wd <+: r)) :
    writeFile H fs ctx home wd name content =
      (fs, blockedReceipt "write" name.render "POLICY_A_REJECTION") ∧
    deleteFile fs ctx home wd name =
      (fs, blockedReceipt "delete" name.render "POLICY_A_REJECTION") ∧
    patchFile H fs ctx home wd name findText replText =
      (fs, blockedReceipt "patch" name.render "POLICY_A_REJECTION") := by
  have hbW := isInBounds_false_of_outside fs home wd (getPath home wd name) hwd hsovW houtW
  have hbP := isInBounds_false_of_outside fs home wd (joinPath wd name) hwd hsovP houtP
  have hsW := isSafe_false_of_notInBounds fs ctx home wd _ hbW
  have hsP := isSafe_false_of_notInBounds fs ctx home wd _ hbP
  refine ⟨?_, ?_, ?_⟩
  · simp [writeFile, hsW, hbW]
  · simp [deleteFile, hsW, hbW]
  · simp [patchFile, hsP, hbP]

theorem c1_policy_a_blocks_outside_witness :
    writeFile id flatFS none ["home", "u"] ["w"] (PyPath.abs ["etc", "passwd"]) "data" =
      (flatFS, blockedReceipt "write" (PyPath.abs ["etc", "passwd"]).render "POLICY_A_REJECTION") ∧
    deleteFile flatFS none ["home", "u"] ["w"] (PyPath.abs ["etc", "passwd"]) =
      (flatFS, blockedReceipt "delete" (PyPath.abs ["etc", "passwd"]).render "POLICY_A_REJECTION") ∧
    patchFile id flatFS none ["home", "u"] ["w"] (PyPath.abs ["etc", "passwd"]) "old" "new" =
      (flatFS, blockedReceipt "patch" (PyPath.abs ["etc", "passwd"]).render "POLICY_A_REJECTION") :=
  c1_policy_a_blocks_outside id flatFS none ["home", "u"] ["w"]
    (PyPath.abs ["etc", "passwd"]) "data" "old" "new"
    rfl (by decide) (fun r hr => by cases hr; decide)
    (by decide) (fun r hr => by cases hr; decide)

/-- C3 (confirmed): when any component of the target path relative to
the workspace root — the final one included — is a symbolic link, the
executor rejects the operation with `exit_code=13` before any
filesystem effect, no matter where the symlink resolves (here the
resolution oracle is arbitrary, and the witness resolves the path back
inside the workspace); paths under `~/.xi-io` are exempt from the
symlink walk. -/
theorem c3_symlink_rejected
    (H : String → String) (fs : FS) (ctx : Option (List String → Bool))
    (home wd : List String) (name : PyPath) (t rel : List String)
    (content findText replText : String)
    (hwd : fs.resolve wd = some wd)
    (htP : joinPath wd name = t)
    (htW : getPath home wd name = t)
    (hrel : t = wd ++ rel)
    (hsym : symlinkHit fs wd rel = true)
    (hsov : ¬ ((home ++ [".xi-io"]) <+: t)) :
    patchFile H fs ctx home wd name findText replText =
      (fs, blockedReceipt "patch" name.render "POLICY_A_REJECTION") ∧
    writeFile H fs ctx home wd name content =
      (fs, blockedReceipt "write" name.render "POLICY_A_REJECTION") ∧
    deleteFile fs ctx home wd name =
      (fs, blockedReceipt "delete" name.render "POLICY_A_REJECTION") ∧
    (∀ t', (home ++ [".xi-io"]) <+: t' → isInBoundsParts fs home wd t' = true) := by
  have hb := isInBounds_false_of_symlink fs home wd t rel hwd hrel hsym hsov
  have hbP : isInBoundsParts fs home wd (joinPath wd name) = false := htP ▸ hb
  have hbW : isInBoundsParts fs home wd (getPath home wd name) = false := htW ▸ hb
  have hsP := isSafe_false_of_notInBounds fs ctx home wd _ hbP
  have hsW := isSafe_false_of_notInBounds fs ctx home wd _ hbW
  refine ⟨?_, ?_, ?_, ?_⟩
  · simp [patchFile, hsP, hbP]
  · simp [writeFile, hsW, hbW]
  · simp [deleteFile, hsW, hbW]
  · intro t' hsov'
    exact isInBounds_sovereign fs home wd t' wd hwd hsov'

theorem c3_symlink_rejected_witness :
    patchFile id symFS none ["home", "u"] ["w"] (PyPath.rel ["link", "x"]) "old" "new" =
      (symFS, blockedReceipt "patch" (PyPath.rel ["link", "x"]).render "POLICY_A_REJECTION") ∧
    writeFile id symFS none ["home", "u"] ["w"] (PyPath.rel ["link", "x"]) "data" =
      (symFS, blockedReceipt "write" (PyPath.rel ["link", "x"]).render "POLICY_A_REJECTION") ∧
    deleteFile symFS none ["home", "u"] ["w"] (PyPath.rel ["link", "x"]) =
      (symFS, blockedReceipt "delete" (PyPath.rel ["link", "x"]).render "POLICY_A_REJECTION") ∧
    (∀ t', (["home", "u"] ++ [".xi-io"]) <+: t' → isInBoundsParts symFS ["home", "u"] ["w"] t' = true) :=
  c3_symlink_rejected id symFS none ["home", "u"] ["w"] (PyPath.rel ["link", "x"])
    ["w", "link", "x"] ["link", "x"] "data" "old" "new"
    (by decide) rfl rfl rfl (by decide) (by decide)

/-! ## Mode governor -/

/-- C8 (amended): only PLAN and DEBUG carry forbidden-operation sets.
In CHAT and REVIEW (and ACT) the governor block rejects nothing — every
command, mutating ones included, falls through to dispatch.  A
forbidden command raises `PermissionError` in PLAN and exits with code
13 and the mode's refusal message in DEBUG. -/
theorem c8_governor_rules (cmd : String) :
    governorCheck AgenticMode.CHAT cmd = GovernorDecision.proceed ∧
    governorCheck AgenticMode.REVIEW cmd = GovernorDecision.proceed ∧
    governorCheck AgenticMode.ACT cmd = GovernorDecision.proceed ∧
    (∀ r, governorRules AgenticMode.PLAN = some r → cmd ∈ r.forbidden →
      governorCheck AgenticMode.PLAN cmd =
        GovernorDecision.raisePermissionError (formatMsg r.message cmd)) ∧
    (∀ r, governorRules AgenticMode.DEBUG = some r → cmd ∈ r.forbidden →
      governorCheck AgenticMode.DEBUG cmd =
        GovernorDecision.refuseExit 13 (formatMsg r.message cmd)) := by
  refine ⟨rfl, rfl, rfl, ?_, ?_⟩
  · intro r hr hm
    simp only [governorRules, Option.some.injEq] at hr
    subst hr
    simp [governorCheck, governorRules, hm]
  · intro r hr hm
    simp only [governorRules, Option.some.injEq] at hr
    subst hr
    simp [governorCheck, governorRules, hm, exitCodes, List.lookup]

theorem c8_governor_rules_witness :
    governorCheck AgenticMode.CHAT "write" = GovernorDecision.proceed ∧
    governorCheck AgenticMode.PLAN "write" =
      GovernorDecision.raisePermissionError
        (formatMsg "Action prohibited in PLAN mode: \x7bcmd\x7d" "write") ∧
    governorCheck AgenticMode.DEBUG "write" =
      GovernorDecision.refuseExit 13
        (formatMsg ("Tool " ++ sq ++ "\x7bcmd\x7d" ++ sq ++
          " not available in DEBUG mode. (Read-only + Wargame execution only)") "write") :=
  ⟨(c8_governor_rules "write").1,
   (c8_governor_rules "write").2.2.2.1 _ rfl (by decide),
   (c8_governor_rules "write").2.2.2.2 _ rfl (by decide)⟩

/-- C8 (counterexample): in CHAT and REVIEW modes mutating commands are
*not* rejected — the governor block passes them straight through to
dispatch (`GOVERNOR_RULES` has no entry for either mode), contradicting
the claim that they are refused with `exit_code=13`. -/
theorem c8_counterexample :
    governorCheck AgenticMode.CHAT "write" = GovernorDecision.proceed ∧
    governorCheck AgenticMode.CHAT "delete" = GovernorDecision.proceed ∧
    governorCheck AgenticMode.REVIEW "write" = GovernorDecision.proceed ∧
    governorCheck AgenticMode.REVIEW "run" = GovernorDecision.proceed := by
  decide

/-! ## Shell runner -/

/-- C9 (amended): when `subprocess.run` raises `TimeoutExpired` (the
60-second wall clock), `run_command`'s blanket `except Exception`
converts it to a receipt with `ok=false` and `exit_code=1` carrying the
stringified exception — not `exit_code=15`. -/
theorem c9_run_timeout_receipt (cmd msg : String) :
    runCommand cmd (RunOutcome.timedOut msg) =
      { baseReceipt "run" cmd false with exit_code := 1, reason := some msg } := rfl

/-- C9 (counterexample): a timed-out run yields `exit_code=1`, not the
claimed `exit_code=15`. -/
theorem c9_counterexample :
    (runCommand "sleep 120" (RunOutcome.timedOut "Command timed out after 60 seconds")).ok = false ∧
    (runCommand "sleep 120" (RunOutcome.timedOut "Command timed out after 60 seconds")).exit_code = 1 ∧
    (runCommand "sleep 120" (RunOutcome.timedOut "Command timed out after 60 seconds")).exit_code ≠ 15 := by
  decide

/-! ## Ledger helpers -/

theorem logAction_getLast (H : String → String) (ts : Nat) (inp : LogInput)
    (ledger : List LedgerEntry) :
    (logAction H ts inp ledger).getLast? =
      some (mkFullEntry H ts inp (getLastHash ledger)) := by
  simp only [logAction]
  split
  · next hlen =>
    rw [List.drop_append_of_le_length
      (by simp only [List.length_append, List.length_cons, List.length_nil] at hlen ⊢; omega)]
    exact List.getLast?_concat _
  · exact List.getLast?_concat _

/-- C10 (confirmed): when the last ledger entry lacks a `chain_hash`
key, `get_last_hash` answers `GENESIS`, so the next `log_action` append
hashes against `GENESIS` — the chain silently re-anchors at the legacy
tail instead of linking to any earlier entry that does carry a hash. -/
theorem c10_legacy_tail_reanchors (H : String → String) (ts : Nat) (inp : LogInput)
    (ledger : List LedgerEntry) (last : LedgerEntry)
    (hlast : ledger.getLast? = some last)
    (hnone : last.chain_hash = none) :
    getLastHash ledger = "GENESIS" ∧
    (logAction H ts inp ledger).getLast? = some (mkFullEntry H ts inp "GENESIS") ∧
    (mkFullEntry H ts inp "GENESIS").chain_hash =
      some (chainHashF H (dumpsEntrySansChain (mkBaseEntry H ts inp)) "GENESIS") := by
  have hg : getLastHash ledger = "GENESIS" := by
    unfold getLastHash
    rw [hlast]
    simp [hnone]
  exact ⟨hg, by rw [logAction_getLast, hg], rfl⟩

theorem c10_legacy_tail_reanchors_witness :
    getLastHash legacyLedger = "GENESIS" ∧
    (logAction id 2 demoInput legacyLedger).getLast? = some (mkFullEntry id 2 demoInput "GENESIS") ∧
    (mkFullEntry id 2 demoInput "GENESIS").chain_hash =
      some (chainHashF id (dumpsEntrySansChain (mkBaseEntry id 2 demoInput)) "GENESIS") :=
  c10_legacy_tail_reanchors id 2 demoInput legacyLedger
    ⟨"E1", 1, "u", "a", "t", "p", [], none⟩ (by decide) rfl

theorem verifyGo_cons_none (H : String → String) (total : Nat) (e : LedgerEntry)
    (rest : List LedgerEntry) (i : Nat) (prev : String) (u : Nat)
    (hs : e.chain_hash = none) :
    verifyGo H total (e :: rest) i prev u = verifyGo H total rest (i + 1) prev (u + 1) := by
  simp [verifyGo, hs]

theorem verifyGo_cons_some (H : String → String) (total : Nat) (e : LedgerEntry)
    (rest : List LedgerEntry) (i : Nat) (prev : String) (u : Nat) (stored : String)
    (hs : e.chain_hash = some stored) :
    verifyGo H total (e :: rest) i prev u =
      if stored ≠ chainHashF H (dumpsEntrySansChain { e with chain_hash := none }) prev
      then ⟨false, i + 1, some i, u⟩
      else verifyGo H total rest (i + 1) stored u := by
  simp only [verifyGo, hs]

theorem verifyGo_unchained_le (H : String → String) (total : Nat) :
    ∀ (l : List LedgerEntry) (i : Nat) (prev : String) (u : Nat),
      u ≤ (verifyGo H total l i prev u).unchained := by
  intro l
  induction l with
  | nil => intro i prev u; exact Nat.le_refl u
  | cons e rest ih =>
    intro i prev u
    cases hs : e.chain_hash with
    | none =>
      rw [verifyGo_cons_none H total e rest i prev u hs]
      exact Nat.le_trans (Nat.le_succ u) (ih (i + 1) prev (u + 1))
    | some stored =>
      rw [verifyGo_cons_some H total e rest i prev u stored hs]
      split
      · exact Nat.le_refl u
      · exact ih (i + 1) stored u

theorem verifyGo_of_chainedFrom (H : String → String) (total : Nat) :
    ∀ (l : List LedgerEntry) (prev : String) (i u : Nat),
      chainedFrom H prev l →
      verifyGo H total l i prev u = ⟨true, total, none, u⟩ := by
  intro l
  induction l with
  | nil => intro prev i u _; rfl
  | cons e rest ih =>
    intro prev i u hc
    obtain ⟨s, hs, heq, hrest⟩ := hc
    rw [verifyGo_cons_some H total e rest i prev u s hs]
    rw [if_neg (by simp [heq])]
    exact ih s (i + 1) u hrest

theorem chainedFrom_of_verifyGo (H : String → String) (total : Nat) :
    ∀ (l : List LedgerEntry) (prev : String) (i u : Nat) (t' : Nat),
      verifyGo H total l i prev u = ⟨true, t', none, u⟩ →
      chainedFrom H prev l := by
  intro l
  induction l with
  | nil => intro prev i u t' _; trivial
  | cons e rest ih =>
    intro prev i u t' hv
    cases hs : e.chain_hash with
    | none =>
      rw [verifyGo_cons_none H total e rest i prev u hs] at hv
      have hle := verifyGo_unchained_le H total rest (i + 1) prev (u + 1)
      rw [hv] at hle
      exact absurd hle (Nat.not_succ_le_self u)
    | some stored =>
      rw [verifyGo_cons_some H total e rest i prev u stored hs] at hv
      split at hv
      · cases hv
      · next hne =>
        have hstored : stored =
            chainHashF H (dumpsEntrySansChain { e with chain_hash := none }) prev := by
          by_contra hcon
          exact hne hcon
        exact ⟨stored, hs, hstored, ih stored (i + 1) u t' hv⟩

theorem chainEnd_cons (prev : String) (f : LedgerEntry) (t : List LedgerEntry) :
    chainEnd prev (f :: t) = chainEnd (f.chain_hash.getD "GENESIS") t := by
  cases t with
  | nil => rfl
  | cons g u => simp [chainEnd, List.getLast?]

theorem chainedFrom_append (H : String → String) :
    ∀ (l : List LedgerEntry) (prev : String) (e : LedgerEntry),
      chainedFrom H prev l →
      e.chain_hash = some (chainHashF H (dumpsEntrySansChain { e with chain_hash := none })
        (chainEnd prev l)) →
      chainedFrom H prev (l ++ [e]) := by
  intro l
  induction l with
  | nil =>
    intro prev e _ he
    exact ⟨_, he, rfl, trivial⟩
  | cons f t ih =>
    intro prev e hc he
    obtain ⟨s, hs, heq, hrest⟩ := hc
    refine ⟨s, hs, heq, ih s e hrest ?_⟩
    rw [chainEnd_cons, hs] at he
    exact he

theorem getLastHash_eq_chainEnd (l : List LedgerEntry) :
    getLastHash l = chainEnd "GENESIS" l := rfl

/-- C2 (amended): the appended entry's `chain_hash` is
`H(prev ++ ":" ++ dumps(entry minus chain_hash))` where `prev` is
`get_last_hash` of the old ledger and `dumps` is `json.dumps` with
`sort_keys=True` and Python's *default* separators — `", "` and `": "`,
each containing a space, not the whitespace-free canonical form the
claim demands — and `verify_chain` recomputes exactly the same value
per entry, so appending to a valid fully-chained ledger (below the cap)
keeps `verify_chain` valid. -/
theorem c2_chain_hash_spec (H : String → String) (ts : Nat) (inp : LogInput)
    (ledger : List LedgerEntry) :
    (logAction H ts inp ledger).getLast? =
      some (mkFullEntry H ts inp (getLastHash ledger)) ∧
    (mkFullEntry H ts inp (getLastHash ledger)).chain_hash =
      some (chainHashF H
        (dumpsEntrySansChain
          { mkFullEntry H ts inp (getLastHash ledger) with chain_hash := none })
        (getLastHash ledger)) ∧
    (ledger.length < 1000 →
      verifyChain H ledger = ⟨true, ledger.length, none, 0⟩ →
      verifyChain H (logAction H ts inp ledger) =
        ⟨true, ledger.length + 1, none, 0⟩) := by
  refine ⟨logAction_getLast H ts inp ledger, rfl, ?_⟩
  intro hlen hvalid
  have hchained : chainedFrom H "GENESIS" ledger := by
    cases hl : ledger with
    | nil => trivial
    | cons e rest =>
      rw [hl] at hvalid
      unfold verifyChain at hvalid
      rw [if_neg (by simp)] at hvalid
      exact chainedFrom_of_verifyGo H (e :: rest).length (e :: rest) "GENESIS" 0 0 _ hvalid
  have happ : logAction H ts inp ledger =
      ledger ++ [mkFullEntry H ts inp (getLastHash ledger)] := by
    simp only [logAction]
    rw [if_neg (by simp only [List.length_append, List.length_cons, List.length_nil]; omega)]
  have hchained2 : chainedFrom H "GENESIS"
      (ledger ++ [mkFullEntry H ts inp (getLastHash ledger)]) := by
    apply chainedFrom_append H ledger "GENESIS" _ hchained
    rw [← getLastHash_eq_chainEnd]
    rfl
  rw [happ]
  unfold verifyChain
  rw [if_neg (by simp)]
  rw [verifyGo_of_chainedFrom H _ _ "GENESIS" 0 0 hchained2]
  simp

theorem c2_chain_hash_spec_witness :
    (logAction id 7 demoInput []).getLast? = some (mkFullEntry id 7 demoInput (getLastHash [])) ∧
    (mkFullEntry id 7 demoInput (getLastHash [])).chain_hash =
      some (chainHashF id
        (dumpsEntrySansChain { mkFullEntry id 7 demoInput (getLastHash []) with chain_hash := none })
        (getLastHash [])) ∧
    verifyChain id (logAction id 7 demoInput []) = ⟨true, 1, none, 0⟩ :=
  ⟨(c2_chain_hash_spec id 7 demoInput []).1,
   (c2_chain_hash_spec id 7 demoInput []).2.1,
   (c2_chain_hash_spec id 7 demoInput []).2.2 (by decide) (by decide)⟩

set_option maxRecDepth 100000 in
/-- C2 (counterexample): the claim demands canonical JSON with *no
insignificant whitespace*; `json.dumps(…, sort_keys=True)` with default
separators emits `", "` and `": "`.  Already for the first entry over
an empty ledger (prev = GENESIS) the stored hash input differs from the
compact serialization, refuted here with the identity hash. -/
theorem c2_counterexample :
    logAction id 5 demoInput [] = [mkFullEntry id 5 demoInput "GENESIS"] ∧
    (mkFullEntry id 5 demoInput "GENESIS").chain_hash ≠
      some (chainHashF id
        (dumpsEntrySansChainCompact
          { mkFullEntry id 5 demoInput "GENESIS" with chain_hash := none })
        "GENESIS") := by
  decide

/-! ## Ledger cap -/

theorem logAction_trunc (H : String → String) (ts : Nat) (inp : LogInput)
    (ledger : List LedgerEntry) (h : ledger.length = 1000) :
    logAction H ts inp ledger =
      ledger.drop 1 ++ [mkFullEntry H ts inp (getLastHash ledger)] := by
  simp only [logAction]
  rw [if_pos (by simp only [List.length_append, List.length_cons, List.length_nil]; omega)]
  have hd : (ledger ++ [mkFullEntry H ts inp (getLastHash ledger)]).length - 1000 = 1 := by
    simp only [List.length_append, List.length_cons, List.length_nil]
    omega
  rw [hd]
  exact List.drop_append_of_le_length (by omega)

/-- C4 (amended): an append at 1000 entries slices to the most recent
1000 but does not re-anchor: the oldest retained entry is the old
second entry, kept verbatim with its original `chain_hash`.  Whenever
that stored hash differs from the recomputation against `GENESIS`,
`verify_chain` on the truncated ledger reports `valid=false` with
`first_broken=0` — not `valid=true` as claimed. -/
theorem c4_truncation_breaks_chain (H : String → String) (ts : Nat) (inp : LogInput)
    (ledger : List LedgerEntry) (e1 : LedgerEntry) (h : String)
    (hlen : ledger.length = 1000)
    (h1 : ledger.get? 1 = some e1)
    (hh : e1.chain_hash = some h)
    (hne : h ≠ chainHashF H (dumpsEntrySansChain { e1 with chain_hash := none }) "GENESIS") :
    (logAction H ts inp ledger).length = 1000 ∧
    (logAction H ts inp ledger).head? = some e1 ∧
    (verifyChain H (logAction H ts inp ledger)).valid = false ∧
    (verifyChain H (logAction H ts inp ledger)).first_broken = some 0 := by
  cases ledger with
  | nil => simp at hlen
  | cons a t =>
    cases t with
    | nil => simp at hlen
    | cons b u =>
      simp only [List.get?_cons_succ, List.get?_cons_zero, Option.some.injEq] at h1
      subst h1
      rw [logAction_trunc H ts inp _ hlen]
      simp only [List.drop_succ_cons, List.drop_zero, List.cons_append]
      simp only [List.length_cons] at hlen
      refine ⟨?_, rfl, ?_⟩
      · simp only [List.length_cons, List.length_append, List.length_nil]
        omega
      unfold verifyChain
      rw [if_neg (by simp)]
      rw [verifyGo_cons_some H _ _ _ 0 "GENESIS" 0 h hh]
      rw [if_pos (by simpa using hne)]
      exact ⟨rfl, rfl⟩

set_option maxRecDepth 1000000 in
theorem c4_truncation_breaks_chain_witness :
    ((logAction id 1 demoInput (List.replicate 1000 xEntry)).length = 1000) ∧
    ((logAction id 1 demoInput (List.replicate 1000 xEntry)).head? = some xEntry) ∧
    ((verifyChain id (logAction id 1 demoInput (List.replicate 1000 xEntry))).valid = false) ∧
    ((verifyChain id (logAction id 1 demoInput (List.replicate 1000 xEntry))).first_broken = some 0) :=
  c4_truncation_breaks_chain id 1 demoInput (List.replicate 1000 xEntry) xEntry "x"
    (by simp) (by decide) rfl (by decide)

set_option maxRecDepth 1000000 in
/-- C4 (counterexample): appending to a 1000-entry ledger truncates,
and `verify_chain` on the result is *not* valid with `first_broken`
null — the oldest retained entry still hashes against its dropped
predecessor, so the chain breaks at index 0. -/
theorem c4_counterexample :
    (verifyChain id (logAction id 1 demoInput (List.replicate 1000 xEntry))).valid = false ∧
    (verifyChain id (logAction id 1 demoInput (List.replicate 1000 xEntry))).first_broken ≠ none := by
  decide

/-! ## Adjudication partition -/

theorem partitionGroups_length (th : Nat) (gs : List (String × ClaimGroup)) :
    (partitionGroups th gs).1.length + (partitionGroups th gs).2.length = gs.length := by
  induction gs with
  | nil => rfl
  | cons g rest ih =>
    obtain ⟨k, cg⟩ := g
    simp only [partitionGroups]
    split
    · simp only [List.length_cons]
      omega
    · simp only [List.length_cons]
      omega

theorem partitionGroups_mem_threshold (th : Nat) (gs : List (String × ClaimGroup))
    (e : GroupEntry) (he : e ∈ (partitionGroups th gs).1) : th ≤ e.frequency := by
  induction gs with
  | nil => cases he
  | cons g rest ih =>
    obtain ⟨k, cg⟩ := g
    simp only [partitionGroups] at he
    split at he
    · next hcond =>
      rcases List.mem_cons.mp he with h | h
      · subst h; exact hcond
      · exact ih h
    · exact ih he

theorem insertClaim_keys_mem (key : String) (c : RawClaim) :
    ∀ gs : List (String × ClaimGroup), key ∈ gs.map Prod.fst →
      (insertClaim key c gs).map Prod.fst = gs.map Prod.fst := by
  intro gs
  induction gs with
  | nil => intro h; cases h
  | cons g rest ih =>
    obtain ⟨k, cg⟩ := g
    intro h
    simp only [insertClaim]
    split
    · simp
    · next hne =>
      simp only [List.map_cons]
      congr 1
      apply ih
      simp only [List.map_cons, List.mem_cons] at h
      rcases h with h | h
      · exact absurd h.symm hne
      · exact h

theorem insertClaim_keys_new (key : String) (c : RawClaim) :
    ∀ gs : List (String × ClaimGroup), key ∉ gs.map Prod.fst →
      (insertClaim key c gs).map Prod.fst = gs.map Prod.fst ++ [key] := by
  intro gs
  induction gs with
  | nil => intro _; rfl
  | cons g rest ih =>
    obtain ⟨k, cg⟩ := g
    intro h
    simp only [List.map_cons, List.mem_cons] at h
    push_neg at h
    simp only [insertClaim]
    split
    · next heq => exact absurd heq.symm h.1
    · simp only [List.map_cons, List.cons_append]
      congr 1
      exact ih h.2

theorem buildGroups_keys (cs : List RawClaim) :
    ∀ acc : List (String × ClaimGroup), ((acc.map Prod.fst).Nodup) →
      (((buildGroups cs acc).map Prod.fst).Nodup ∧
       ((buildGroups cs acc).map Prod.fst).toFinset =
         (acc.map Prod.fst).toFinset ∪
           (((cs.map fun c => normalizeClaim c.claim).filter fun k => k ≠ "").toFinset)) := by
  induction cs with
  | nil =>
    intro acc hnd
    simp only [buildGroups, List.map_nil, List.filter_nil, List.toFinset_nil]
    exact ⟨hnd, by simp⟩
  | cons c cs ih =>
    intro acc hnd
    simp only [buildGroups]
    by_cases hk : normalizeClaim c.claim = ""
    · rw [if_pos hk]
      obtain ⟨h1, h2⟩ := ih acc hnd
      refine ⟨h1, ?_⟩
      rw [h2]
      congr 2
      simp only [List.map_cons, List.filter_cons]
      rw [if_neg (by simp [hk])]
    · rw [if_neg hk]
      by_cases hmem : normalizeClaim c.claim ∈ acc.map Prod.fst
      · have hkeys := insertClaim_keys_mem (normalizeClaim c.claim) c acc hmem
        have hnd' : ((insertClaim (normalizeClaim c.claim) c acc).map Prod.fst).Nodup := by
          rw [hkeys]; exact hnd
        obtain ⟨h1, h2⟩ := ih _ hnd'
        refine ⟨h1, ?_⟩
        rw [h2, hkeys]
        simp only [List.map_cons, List.filter_cons]
        rw [if_pos (by simp [hk])]
        rw [List.toFinset_cons]
        rw [Finset.union_insert]
        rw [Finset.insert_eq_self.mpr]
        exact Finset.mem_union_left _ (List.mem_toFinset.mpr hmem)
      · have hkeys := insertClaim_keys_new (normalizeClaim c.claim) c acc hmem
        have hnd' : ((insertClaim (normalizeClaim c.claim) c acc).map Prod.fst).Nodup := by
          rw [hkeys]
          simp only [List.nodup_append, List.nodup_cons, List.nodup_nil]
          exact ⟨hnd, ⟨by simp, by simp⟩, by simpa using hmem⟩
        obtain ⟨h1, h2⟩ := ih _ hnd'
        refine ⟨h1, ?_⟩
        rw [h2, hkeys]
        simp only [List.map_cons, List.filter_cons]
        rw [if_pos (by simp [hk])]
        simp only [List.toFinset_append, List.toFinset_cons, List.toFinset_nil,
          insert_emptyc_eq, Finset.insert_eq]
        rw [Finset.union_assoc]

theorem buildGroups_length (claims : List RawClaim) :
    (buildGroups claims []).length = distinctNonemptyKeyCount claims := by
  obtain ⟨hnd, hfin⟩ := buildGroups_keys claims [] (by simp)
  have hlen : (buildGroups claims []).length =
      ((buildGroups claims []).map Prod.fst).length := (List.length_map _ _).symm
  rw [hlen, ← List.toFinset_card_of_nodup hnd, hfin]
  simp only [List.map_nil, List.toFinset_nil, Finset.empty_union]
  rw [List.card_toFinset]
  rfl

/-- C5 (amended): for every adjudication, `|intersection| + |minority|`
equals the number of distinct *nonempty* normalized claim keys among
the input claims (claims whose text normalizes to the empty string are
skipped by the grouping loop and belong to no group), and every
promoted group's agent set has size at least `⌊n/2⌋ + 1`. -/
theorem c5_partition_invariant (claims : List RawClaim) (n : Nat) :
    ((adjudicatePartition claims n).1.length + (adjudicatePartition claims n).2.length =
      distinctNonemptyKeyCount claims) ∧
    ∀ e ∈ (adjudicatePartition claims n).1, n / 2 + 1 ≤ e.frequency := by
  constructor
  · rw [adjudicatePartition, partitionGroups_length, buildGroups_length]
  · intro e he
    exact partitionGroups_mem_threshold (n / 2 + 1) (buildGroups claims []) e he

theorem c5_inter_nonempty : (adjudicatePartition demoClaims 3).1 ≠ [] := by decide

theorem c5_partition_invariant_witness :
    ((adjudicatePartition demoClaims 3).1.length + (adjudicatePartition demoClaims 3).2.length =
      distinctNonemptyKeyCount demoClaims) ∧
    3 / 2 + 1 ≤ ((adjudicatePartition demoClaims 3).1.head c5_inter_nonempty).frequency :=
  ⟨(c5_partition_invariant demoClaims 3).1,
   (c5_partition_invariant demoClaims 3).2 _ (List.head_mem c5_inter_nonempty)⟩

/-- C5 (counterexample): a claim whose text normalizes to the empty
key (for example `"..."`) is skipped by the grouping loop, so the
partition sizes sum to strictly fewer than the number of distinct
normalized claim keys among the inputs, refuting the claim as stated. -/
theorem c5_counterexample :
    (adjudicatePartition [⟨"...", "fact", 1, "a1"⟩] 1).1.length +
      (adjudicatePartition [⟨"...", "fact", 1, "a1"⟩] 1).2.length = 0 ∧
    distinctNormalizedKeyCount [⟨"...", "fact", 1, "a1"⟩] = 1 := by
  decide

/-! ## Governed walker -/

theorem scanDir_pushes_bound (exts : Option (List String)) :
    ∀ (ds : List FTree) (p : Bool × List FTree), p ∈ (scanDir exts ds).2 →
      dirMatches exts p.2 ≤ forestMaxMatch exts ds ∧
      forestMaxMatch exts p.2 ≤ forestMaxMatch exts ds := by
  intro ds
  induction ds with
  | nil => intro p hp; simp [scanDir] at hp
  | cons t rest ih =>
    intro p hp
    cases t with
    | file n =>
      have h2 : (scanDir exts (.file n :: rest)).2 = (scanDir exts rest).2 := by
        simp only [scanDir]
        split <;> rfl
      rw [h2] at hp
      have hr := ih p hp
      simp only [forestMaxMatch]
      exact ⟨Nat.le_trans hr.1 (Nat.le_max_right _ _),
             Nat.le_trans hr.2 (Nat.le_max_right _ _)⟩
    | dir n sd rd chd =>
      simp only [scanDir] at hp
      split at hp
      · have hr := ih p hp
        simp only [forestMaxMatch]
        exact ⟨Nat.le_trans hr.1 (Nat.le_max_right _ _),
               Nat.le_trans hr.2 (Nat.le_max_right _ _)⟩
      · split at hp
        · rcases List.mem_cons.mp hp with h | h
          · subst h
            simp only [forestMaxMatch, treeMaxMatch]
            exact ⟨Nat.le_trans (Nat.le_max_left _ _) (Nat.le_max_left _ _),
                   Nat.le_trans (Nat.le_max_right _ _) (Nat.le_max_left _ _)⟩
          · have hr := ih p h
            simp only [forestMaxMatch]
            exact ⟨Nat.le_trans hr.1 (Nat.le_max_right _ _),
                   Nat.le_trans hr.2 (Nat.le_max_right _ _)⟩
        · have hr := ih p hp
          simp only [forestMaxMatch]
          exact ⟨Nat.le_trans hr.1 (Nat.le_max_right _ _),
                 Nat.le_trans hr.2 (Nat.le_max_right _ _)⟩

theorem walkGo_count_le (tm : Nat → Bool) (exts : Option (List String)) (maxF mx : Nat)
    (hM : 1 ≤ maxF) :
    ∀ (st : List (Bool × List FTree)) (iter count : Nat) (samples : List String),
      count ≤ maxF - 1 + mx →
      (∀ p ∈ st, dirMatches exts p.2 ≤ mx ∧ forestMaxMatch exts p.2 ≤ mx) →
      (walkGo tm exts maxF st iter count samples).count ≤ maxF - 1 + mx := by
  intro st iter count samples
  induction st, iter, count, samples using walkGo.induct tm exts maxF with
  | case1 iter count samples =>
    intro hc _
    simpa [walkGo] using hc
  | case2 readable ds rest iter count samples htm =>
    intro hc _
    simpa [walkGo, htm] using hc
  | case3 readable ds rest iter count samples htm hcnt =>
    intro hc _
    simpa [walkGo, htm, hcnt] using hc
  | case4 ds rest iter count samples htm hcnt scan ih =>
    intro hc hst
    rw [walkGo]
    simp only [htm, hcnt, if_false, if_true, Bool.false_eq_true, ite_false, ite_true]
    have hhead := hst (true, ds) (List.mem_cons_self _ _)
    apply ih
    · have hlt : count < maxF := Nat.lt_of_not_le hcnt
      have hdm : scan.1.length ≤ mx := hhead.1
      omega
    · intro p hp
      rcases List.mem_append.mp hp with h | h
      · have hmem := List.mem_reverse.mp h
        have hb := scanDir_pushes_bound exts ds p hmem
        exact ⟨Nat.le_trans hb.1 hhead.2, Nat.le_trans hb.2 hhead.2⟩
      · exact hst p (List.mem_cons_of_mem _ h)
  | case5 readable ds rest iter count samples htm hcnt hrd ih =>
    intro hc hst
    rw [walkGo]
    simp only [htm, hcnt, hrd, Bool.false_eq_true, ite_false, ite_true]
    exact ih hc (fun p hp => hst p (List.mem_cons_of_mem _ hp))

theorem walkGo_maxReached (tm : Nat → Bool) (exts : Option (List String)) (maxF : Nat) :
    ∀ (st : List (Bool × List FTree)) (iter count : Nat) (samples : List String),
      (walkGo tm exts maxF st iter count samples).status = "MAX_REACHED" →
      maxF ≤ (walkGo tm exts maxF st iter count samples).count := by
  intro st iter count samples
  induction st, iter, count, samples using walkGo.induct tm exts maxF with
  | case1 iter count samples =>
    intro h
    simp [walkGo] at h
  | case2 readable ds rest iter count samples htm =>
    intro h
    simp [walkGo, htm] at h
  | case3 readable ds rest iter count samples htm hcnt =>
    intro _
    rw [walkGo]
    simp [htm, hcnt]
  | case4 ds rest iter count samples htm hcnt scan ih =>
    intro h
    rw [walkGo] at h ⊢
    simp only [htm, hcnt, Bool.false_eq_true, ite_false, ite_true] at h ⊢
    exact ih h
  | case5 readable ds rest iter count samples htm hcnt hrd ih =>
    intro h
    rw [walkGo] at h ⊢
    simp only [htm, hcnt, hrd, Bool.false_eq_true, ite_false, ite_true] at h ⊢
    exact ih h

/-- C7 (amended): the walker tests both budgets when a directory is
*popped*, before scanning it, so the returned count may exceed the cap
`M` by up to one directory's worth of matches: it is bounded by
`M - 1` plus the largest per-directory match count, and the status is
`MAX_REACHED` only when some directory was popped with the count
already at the cap (hence `MAX_REACHED` implies `count ≥ M`); a cap
first exceeded while scanning the last queued directory yields `OK`. -/
theorem c7_walker_cap (tm : Nat → Bool) (exts : Option (List String)) (maxF : Nat)
    (rootOk rootRd : Bool) (ch : List FTree) (hM : 1 ≤ maxF) :
    ((governedCount tm exts maxF rootOk rootRd ch).count ≤
      (maxF - 1) + max (dirMatches exts ch) (forestMaxMatch exts ch)) ∧
    ((governedCount tm exts maxF rootOk rootRd ch).status = "MAX_REACHED" →
      maxF ≤ (governedCount tm exts maxF rootOk rootRd ch).count) := by
  unfold governedCount
  split
  · refine ⟨by simp, ?_⟩
    intro h
    simp at h
  · constructor
    · apply walkGo_count_le tm exts maxF _ hM
      · omega
      · intro p hp
        simp only [List.mem_singleton] at hp
        subst hp
        exact ⟨Nat.le_max_left _ _, Nat.le_max_right _ _⟩
    · exact walkGo_maxReached tm exts maxF _ _ _ _

theorem c7_walker_cap_witness :
    ((governedCount (fun _ => false) none 2 true true
        [.file "a", .file "b", .file "c"]).count ≤
      (2 - 1) + max (dirMatches none [.file "a", .file "b", .file "c"])
        (forestMaxMatch none [.file "a", .file "b", .file "c"])) ∧
    ((governedCount (fun _ => false) none 2 true true
        [.file "a", .file "b", .file "c"]).status = "MAX_REACHED" →
      2 ≤ (governedCount (fun _ => false) none 2 true true
        [.file "a", .file "b", .file "c"]).count) :=
  c7_walker_cap (fun _ => false) none 2 true true [.file "a", .file "b", .file "c"]
    (by decide)

/-- C7 (counterexample): a root directory holding three matching files
under cap `M = 2` ends with `count = 3 > M` and status `OK`, not
`MAX_REACHED` — the budgets are only tested per directory pop, not
after every entry. -/
theorem c7_counterexample :
    ((governedCount (fun _ => false) none 2 true true
        [.file "a", .file "b", .file "c"]).count = 3) ∧
    ((governedCount (fun _ => false) none 2 true true
        [.file "a", .file "b", .file "c"]).status = "OK") ∧
    ¬ ((governedCount (fun _ => false) none 2 true true
        [.file "a", .file "b", .file "c"]).count ≤ 2) := by
  refine ⟨?_, ?_, ?_⟩ <;> simp [governedCount, walkGo, scanDir, extMatch]

/-! ## Claim normalization: character lemmas -/

theorem char_eq_of_toNat_eq {c d : Char} (h : c.toNat = d.toNat) : c = d :=
  Char.ext (UInt32.toNat.inj h)

theorem char_toNat_ofNat (n : Nat) (h : n < 55296) : (Char.ofNat n).toNat = n := by
  have hv : n.isValidChar := Or.inl h
  rw [Char.ofNat, dif_pos hv]
  simp [Char.ofNatAux, Char.toNat, UInt32.toNat]

theorem toLower_eq_of_not_upper (c : Char) (h : ¬ (65 ≤ c.toNat ∧ c.toNat ≤ 90)) :
    Char.toLower c = c := by
  unfold Char.toLower
  rw [if_neg h]

theorem toNat_toLower_of_upper (c : Char) (h : 65 ≤ c.toNat ∧ c.toNat ≤ 90) :
    (Char.toLower c).toNat = c.toNat + 32 := by
  unfold Char.toLower
  rw [if_pos h]
  exact char_toNat_ofNat _ (by omega)

theorem toLower_toLower (c : Char) : Char.toLower (Char.toLower c) = Char.toLower c := by
  by_cases h : 65 ≤ c.toNat ∧ c.toNat ≤ 90
  · have h2 := toNat_toLower_of_upper c h
    exact toLower_eq_of_not_upper _ (by omega)
  · rw [toLower_eq_of_not_upper c h, toLower_eq_of_not_upper c h]

theorem isPyWs_iff_toNat (c : Char) :
    isPyWs c = true ↔
      (c.toNat = 32 ∨ c.toNat = 9 ∨ c.toNat = 10 ∨ c.toNat = 13 ∨
       c.toNat = 11 ∨ c.toNat = 12) := by
  unfold isPyWs
  simp only [Bool.or_eq_true, beq_iff_eq]
  constructor
  · rintro (((((h | h) | h) | h) | h) | h) <;> subst h <;> simp [Char.toNat]
  · rintro (h | h | h | h | h | h) <;>
      [skip; skip; skip; skip; skip; skip] <;>
      first
        | (left; left; left; left; left; exact char_eq_of_toNat_eq (by simpa using h))
        | (left; left; left; left; right; exact char_eq_of_toNat_eq (by simpa using h))
        | (left; left; left; right; exact char_eq_of_toNat_eq (by simpa using h))
        | (left; left; right; exact char_eq_of_toNat_eq (by simpa using h))
        | (left; right; exact char_eq_of_toNat_eq (by simpa using h))
        | (right; exact char_eq_of_toNat_eq (by simpa using h))

theorem isPyWs_toLower (c : Char) : isPyWs (Char.toLower c) = isPyWs c := by
  by_cases h : 65 ≤ c.toNat ∧ c.toNat ≤ 90
  · have h2 := toNat_toLower_of_upper c h
    have hw1 : isPyWs (Char.toLower c) = false := by
      rw [← Bool.not_eq_true, isPyWs_iff_toNat]
      omega
    have hw2 : isPyWs c = false := by
      rw [← Bool.not_eq_true, isPyWs_iff_toNat]
      omega
    rw [hw1, hw2]
  · rw [toLower_eq_of_not_upper c h]

theorem toLower_eq_space_iff (c : Char) : Char.toLower c = ' ' ↔ c = ' ' := by
  by_cases h : 65 ≤ c.toNat ∧ c.toNat ≤ 90
  · have h2 := toNat_toLower_of_upper c h
    constructor
    · intro hc
      have : (Char.toLower c).toNat = 32 := by rw [hc]; rfl
      omega
    · intro hc
      subst hc
      have h32 : (' ' : Char).toNat = 32 := rfl
      omega
  · rw [toLower_eq_of_not_upper c h]

theorem toLower_space : Char.toLower ' ' = ' ' :=
  toLower_eq_of_not_upper _ (by
    intro h
    have h32 : (' ' : Char).toNat = 32 := rfl
    omega)

/-! ## Claim normalization: strip lemmas -/

theorem dropWhile_head?_false (p : Char → Bool) :
    ∀ (l : List Char) (c : Char), (l.dropWhile p).head? = some c → p c = false := by
  intro l
  induction l with
  | nil => intro c h; cases h
  | cons a t ih =>
    intro c h
    rw [List.dropWhile_cons] at h
    split at h
    · exact ih c h
    · next hpa =>
      simp only [List.head?_cons, Option.some.injEq] at h
      subst h
      exact Bool.not_eq_true _ ▸ hpa

theorem rstripP_prefix (p : Char → Bool) (l : List Char) : rstripP p l <+: l :=
  ⟨(l.reverse.takeWhile p).reverse, by
    rw [rstripP, ← List.reverse_append, List.takeWhile_append_dropWhile, List.reverse_reverse]⟩

theorem dropWhile_suffix_self (p : Char → Bool) (l : List Char) : l.dropWhile p <:+ l :=
  ⟨l.takeWhile p, List.takeWhile_append_dropWhile p l⟩

theorem stripP_infix (p : Char → Bool) (l : List Char) : stripP p l <:+: l := by
  obtain ⟨t, ht⟩ := rstripP_prefix p (l.dropWhile p)
  obtain ⟨s, hs⟩ := dropWhile_suffix_self p l
  refine ⟨s, t, ?_⟩
  conv_rhs => rw [← hs, ← ht]
  simp [stripP, List.append_assoc]

theorem stripP_head?_false (p : Char → Bool) (l : List Char) (c : Char)
    (h : (stripP p l).head? = some c) : p c = false := by
  unfold stripP at h
  obtain ⟨t, ht⟩ := rstripP_prefix p (l.dropWhile p)
  have hne : rstripP p (l.dropWhile p) ≠ [] := by
    intro he
    rw [he] at h
    cases h
  have hd : (l.dropWhile p).head? = some c := by
    rw [← ht, List.head?_append]
    cases hh : (rstripP p (l.dropWhile p)).head? with
    | none => exact absurd (List.head?_eq_none_iff.mp hh) hne
    | some d =>
      rw [hh] at h
      cases h
      rfl
  exact dropWhile_head?_false p l c hd

theorem stripP_getLast?_false (p : Char → Bool) (l : List Char) (c : Char)
    (h : (stripP p l).getLast? = some c) : p c = false := by
  unfold stripP rstripP at h
  rw [List.getLast?_reverse] at h
  exact dropWhile_head?_false p (l.dropWhile p).reverse c h

theorem dropWhile_eq_self_of_head (p : Char → Bool) (l : List Char)
    (h : ∀ c, l.head? = some c → p c = false) : l.dropWhile p = l := by
  cases l with
  | nil => rfl
  | cons a t =>
    rw [List.dropWhile_cons, if_neg]
    simp [h a rfl]

theorem stripP_eq_self (p : Char → Bool) (l : List Char)
    (h1 : ∀ c, l.head? = some c → p c = false)
    (h2 : ∀ c, l.getLast? = some c → p c = false) : stripP p l = l := by
  unfold stripP rstripP
  rw [dropWhile_eq_self_of_head p l h1]
  rw [dropWhile_eq_self_of_head p l.reverse (by
    intro c hc
    rw [List.head?_reverse] at hc
    exact h2 c hc)]
  exact List.reverse_reverse l

/-! ## Claim normalization: word-splitting lemmas -/

theorem dropWhile_length_le {α : Type} (p : α → Bool) (l : List α) :
    (l.dropWhile p).length ≤ l.length := by
  induction l with
  | nil => simp [List.dropWhile]
  | cons a l ih =>
    rw [List.dropWhile_cons]
    split
    · exact Nat.le_succ_of_le ih
    · exact Nat.le_refl _

theorem pywords_ws_cons (c : Char) (cs : List Char) (h : isPyWs c = true) :
    pywords (c :: cs) = pywords cs := by
  simp [pywords, h]

theorem pywords_cons_cons_ws (c d : Char) (t : List Char) (hc : isPyWs c = false)
    (hd : isPyWs d = true) :
    pywords (c :: d :: t) = [c] :: pywords (d :: t) := by
  conv_lhs => rw [pywords]
  simp only [hc, hd, Bool.false_eq_true, ite_false, ite_true, if_false, if_true]

theorem pywords_cons_cons_not_ws (c d : Char) (t : List Char) (hc : isPyWs c = false)
    (hd : isPyWs d = false) :
    pywords (c :: d :: t) =
      match pywords (d :: t) with
      | [] => [[c]]
      | w :: rest => (c :: w) :: rest := by
  conv_lhs => rw [pywords]
  simp only [hc, hd, Bool.false_eq_true, ite_false, if_false]

theorem pywords_cons_not_ws (c : Char) :
    ∀ (cs : List Char), isPyWs c = false →
      pywords (c :: cs) =
        ((c :: cs).takeWhile fun x => !(isPyWs x)) ::
          pywords ((c :: cs).dropWhile fun x => !(isPyWs x)) := by
  intro cs
  induction cs generalizing c with
  | nil =>
    intro hc
    simp [pywords, hc, List.takeWhile_cons, List.dropWhile_cons]
  | cons d t ih =>
    intro hc
    by_cases hd : isPyWs d = true
    · rw [pywords_cons_cons_ws c d t hc hd]
      simp [List.takeWhile_cons, List.dropWhile_cons, hc, hd]
    · have hd' : isPyWs d = false := Bool.not_eq_true _ ▸ hd
      have hih := ih d hd'
      rw [pywords_cons_cons_not_ws c d t hc hd', hih]
      simp [List.takeWhile_cons, List.dropWhile_cons, hc, hd']

theorem pywords_all_words_fuel :
    ∀ (n : Nat) (l : List Char), l.length ≤ n →
      ∀ w ∈ pywords l, w ≠ [] ∧ ∀ c ∈ w, isPyWs c = false := by
  intro n
  induction n with
  | zero =>
    intro l hl w hw
    rw [List.length_eq_zero.mp (Nat.le_zero.mp hl)] at hw
    cases hw
  | succ n ih =>
    intro l hl
    cases l with
    | nil => intro w hw; cases hw
    | cons c cs =>
      by_cases hc : isPyWs c = true
      · rw [pywords_ws_cons c cs hc]
        intro w hw
        exact ih cs (by simpa using Nat.le_of_succ_le_succ hl) w hw
      · have hc' : isPyWs c = false := Bool.not_eq_true _ ▸ hc
        rw [pywords_cons_not_ws c cs hc']
        intro w hw
        rcases List.mem_cons.mp hw with h | h
        · subst h
          constructor
          · simp [List.takeWhile_cons, hc']
          · intro x hx
            have := List.mem_takeWhile_imp hx
            simpa using this
        · have hle : ((c :: cs).dropWhile fun x => !(isPyWs x)).length ≤ n := by
            simp only [List.dropWhile_cons, hc', Bool.not_false, if_true, ite_true]
            exact Nat.le_trans (dropWhile_length_le _ _)
              (by simpa using Nat.le_of_succ_le_succ hl)
          exact ih _ hle w h

theorem pywords_all_words (l : List Char) :
    ∀ w ∈ pywords l, w ≠ [] ∧ ∀ c ∈ w, isPyWs c = false :=
  pywords_all_words_fuel l.length l (Nat.le_refl _)

/-! ## Claim normalization: join lemmas -/

theorem joinWords_cons (w : List Char) (ws : List (List Char)) (h : ws ≠ []) :
    joinWords (w :: ws) = w ++ ' ' :: joinWords ws := by
  cases ws with
  | nil => exact absurd rfl h
  | cons w2 ws2 => rfl

theorem joinWords_ne_nil (W : List (List Char)) (hW : ∀ w ∈ W, w ≠ []) (h : W ≠ []) :
    joinWords W ≠ [] := by
  cases W with
  | nil => exact absurd rfl h
  | cons w ws =>
    cases ws with
    | nil => exact hW w (List.mem_cons_self _ _)
    | cons w2 ws2 =>
      rw [joinWords_cons _ _ (by simp)]
      simp only [ne_eq, List.append_eq_nil]
      intro hcon
      exact hW w (List.mem_cons_self _ _) hcon.1

theorem joinWords_props (W : List (List Char))
    (hW : ∀ w ∈ W, w ≠ [] ∧ ∀ c ∈ w, isPyWs c = false) :
    allWsSpace (joinWords W) ∧ noDoubleSpace (joinWords W) ∧
    (∀ c, (joinWords W).head? = some c → isPyWs c = false) ∧
    (∀ c, (joinWords W).getLast? = some c → isPyWs c = false) := by
  induction W with
  | nil =>
    refine ⟨?_, ?_, ?_, ?_⟩
    · intro c hc; cases hc
    · exact List.chain'_nil
    · intro c hc; cases hc
    · intro c hc; cases hc
  | cons w ws ih =>
    have hw := hW w (List.mem_cons_self _ _)
    have hwords : ∀ x ∈ ws, x ≠ [] ∧ ∀ c ∈ x, isPyWs c = false :=
      fun x hx => hW x (List.mem_cons_of_mem _ hx)
    have hchainw : noDoubleSpace w := by
      apply List.Pairwise.chain'
      rw [List.pairwise_iff_forall_sublist]
      intro a b hab
      have ha : a ∈ w := hab.subset (by simp)
      intro hcon
      have : isPyWs a = false := hw.2 a ha
      rw [hcon.1] at this
      simp [isPyWs] at this
    cases ws with
    | nil =>
      refine ⟨?_, hchainw, ?_, ?_⟩
      · intro c hc hws
        exact absurd (hw.2 c hc) (by simp [hws])
      · intro c hc
        have : c ∈ w := by
          cases w with
          | nil => cases hc
          | cons a t =>
            simp only [joinWords, List.head?_cons, Option.some.injEq] at hc
            subst hc
            exact List.mem_cons_self _ _
        exact hw.2 c this
      · intro c hc
        have : c ∈ w := List.mem_of_mem_getLast? (by simpa [joinWords] using hc)
        exact hw.2 c this
    | cons w2 ws2 =>
      obtain ⟨ihw, ihc, ihh, ihl⟩ := ih hwords
      have hne2 : joinWords (w2 :: ws2) ≠ [] :=
        joinWords_ne_nil _ (fun x hx => (hwords x hx).1) (by simp)
      rw [joinWords_cons w (w2 :: ws2) (by simp)]
      refine ⟨?_, ?_, ?_, ?_⟩
      · intro c hc hws
        rcases List.mem_append.mp hc with h | h
        · exact absurd (hw.2 c h) (by simp [hws])
        · rcases List.mem_cons.mp h with h2 | h2
          · exact h2
          · exact ihw c h2 hws
      · show List.Chain' (fun a b => ¬ (a = ' ' ∧ b = ' '))
          (w ++ ' ' :: joinWords (w2 :: ws2))
        rw [List.chain'_append]
        refine ⟨hchainw, ?_, ?_⟩
        · rw [List.chain'_cons']
          refine ⟨?_, ihc⟩
          intro y hy
          intro hcon
          have hhd : (joinWords (w2 :: ws2)).head? = some y := by
            obtain ⟨a, t, hj⟩ := List.exists_cons_of_ne_nil hne2
            rw [hj] at hy
            rw [hj]
            simpa using hy
          have := ihh y hhd
          rw [hcon.2] at this
          simp [isPyWs] at this
        · intro x hx y hy
          intro hcon
          have hxw : x ∈ w := List.mem_of_mem_getLast? hx
          have : isPyWs x = false := hw.2 x hxw
          rw [hcon.1] at this
          simp [isPyWs] at this
      · intro c hc
        rw [List.head?_append] at hc
        cases hh : w.head? with
        | none =>
          have hwnil : w = [] := List.head?_eq_none_iff.mp hh
          exact absurd hwnil hw.1
        | some d =>
          rw [hh] at hc
          simp only [Option.or_some, Option.some.injEq] at hc
          subst hc
          have : d ∈ w := by
            cases w with
            | nil => cases hh
            | cons a t =>
              simp only [List.head?_cons, Option.some.injEq] at hh
              subst hh
              exact List.mem_cons_self _ _
          exact hw.2 _ this
      · intro c hc
        rw [List.getLast?_append] at hc
        have hgl : (' ' :: joinWords (w2 :: ws2)).getLast? = (joinWords (w2 :: ws2)).getLast? := by
          cases hj : joinWords (w2 :: ws2) with
          | nil => exact absurd hj hne2
          | cons a t => simp [List.getLast?_cons_cons]
        rw [hgl] at hc
        cases hj : (joinWords (w2 :: ws2)).getLast? with
        | none =>
          have := List.getLast?_eq_none_iff.mp hj
          exact absurd this hne2
        | some d =>
          rw [hj] at hc
          simp only [Option.or_some, Option.some.injEq] at hc
          subst hc
          exact ihl _ hj

/-! ## Claim normalization: the canonical-form fixpoint -/

theorem joinWords_pywords_fuel :
    ∀ (n : Nat) (y : List Char), y.length ≤ n →
      allWsSpace y → noDoubleSpace y →
      (∀ c, y.head? = some c → isPyWs c = false) →
      (∀ c, y.getLast? = some c → isPyWs c = false) →
      joinWords (pywords y) = y := by
  intro n
  induction n with
  | zero =>
    intro y hy _ _ _ _
    rw [List.length_eq_zero.mp (Nat.le_zero.mp hy)]
    rfl
  | succ n ih =>
    intro y hy hws hnd hh hl
    cases y with
    | nil => rfl
    | cons c t =>
      have hc : isPyWs c = false := hh c rfl
      rw [pywords_cons_not_ws c t hc]
      have hsplit : ((c :: t).takeWhile fun x => !(isPyWs x)) ++
          ((c :: t).dropWhile fun x => !(isPyWs x)) = c :: t :=
        List.takeWhile_append_dropWhile _ _
      cases hrc : (c :: t).dropWhile fun x => !(isPyWs x) with
      | nil =>
        have htake : ((c :: t).takeWhile fun x => !(isPyWs x)) = c :: t := by
          conv_rhs => rw [← hsplit]
          rw [hrc, List.append_nil]
        rw [htake]
        rfl
      | cons d r2 =>
        have hd : isPyWs d = true := by
          have hstep := dropWhile_head?_false (fun x => !(isPyWs x)) (c :: t) d
            (by rw [hrc]; rfl)
          simpa using hstep
        have hdy : d ∈ c :: t := by
          rw [← hsplit, hrc]
          exact List.mem_append_right _ (List.mem_cons_self _ _)
        have hd' : d = ' ' := hws d hdy hd
        cases r2 with
        | nil =>
          exfalso
          have hlast : (c :: t).getLast? = some d := by
            conv_lhs => rw [← hsplit]
            rw [hrc, List.getLast?_append]
            rfl
          exact absurd (hl d hlast) (by simp [hd])
        | cons e r3 =>
          have hyeq : c :: t = ((c :: t).takeWhile fun x => !(isPyWs x)) ++ d :: e :: r3 := by
            conv_lhs => rw [← hsplit]
            rw [hrc]
          have he : isPyWs e = false := by
            by_cases hecase : isPyWs e = true
            · exfalso
              have hey : e ∈ c :: t := by
                rw [hyeq]
                exact List.mem_append_right _ (List.mem_cons_of_mem _ (List.mem_cons_self _ _))
              have hesp : e = ' ' := hws e hey hecase
              have hchain : List.Chain' (fun a b => ¬ (a = ' ' ∧ b = ' ')) (c :: t) := hnd
              rw [hyeq] at hchain
              have h2 := hchain.right_of_append
              have h3 := (List.chain'_cons.mp h2).1
              exact h3 ⟨hd', hesp⟩
            · exact Bool.not_eq_true _ ▸ hecase
          have hpr2 : pywords (d :: e :: r3) = pywords (e :: r3) :=
            pywords_ws_cons d _ hd
          have hlen2 : (e :: r3).length ≤ n := by
            have h1 : (d :: e :: r3).length ≤ (c :: t).length := by
              rw [← hrc]
              exact dropWhile_length_le _ _
            simp only [List.length_cons] at h1 hy ⊢
            omega
          have hws2 : allWsSpace (e :: r3) := by
            intro a ha haws
            apply hws a _ haws
            rw [hyeq]
            exact List.mem_append_right _ (List.mem_cons_of_mem _ ha)
          have hnd2 : noDoubleSpace (e :: r3) := by
            have hchain : List.Chain' (fun a b => ¬ (a = ' ' ∧ b = ' ')) (c :: t) := hnd
            rw [hyeq] at hchain
            exact (List.chain'_cons'.mp hchain.right_of_append).2
          have hh2 : ∀ a, (e :: r3).head? = some a → isPyWs a = false := by
            intro a ha
            simp only [List.head?_cons, Option.some.injEq] at ha
            subst ha
            exact he
          have hl2 : ∀ a, (e :: r3).getLast? = some a → isPyWs a = false := by
            intro a ha
            apply hl
            rw [hyeq, List.getLast?_append]
            have : (d :: e :: r3).getLast? = (e :: r3).getLast? := by
              simp [List.getLast?_cons_cons]
            rw [this, ha]
            rfl
          have ihr := ih (e :: r3) hlen2 hws2 hnd2 hh2 hl2
          have hpne : pywords (e :: r3) ≠ [] := by
            rw [pywords_cons_not_ws e r3 he]
            simp
          rw [hpr2, joinWords_cons _ _ hpne, ihr]
          conv_rhs => rw [hyeq]
          rw [hd']

theorem map_toLower_fixed (l : List Char) (h : ∀ c ∈ l, Char.toLower c = c) :
    l.map Char.toLower = l := by
  induction l with
  | nil => rfl
  | cons a t ih =>
    simp only [List.map_cons]
    rw [h a (List.mem_cons_self _ _), ih (fun c hc => h c (List.mem_cons_of_mem _ hc))]

theorem normalized_props (x : List Char) :
    allWsSpace (normalizeClaimL x) ∧ noDoubleSpace (normalizeClaimL x) ∧
    (∀ c ∈ normalizeClaimL x, Char.toLower c = c) ∧
    (∀ c, (normalizeClaimL x).head? = some c → isClaimPunct c = false) ∧
    (∀ c, (normalizeClaimL x).getLast? = some c → isClaimPunct c = false) := by
  have hwords := pywords_all_words (stripP isPyWs x)
  obtain ⟨hz2ws, hz2nd, hz2h, hz2l⟩ := joinWords_props _ hwords
  have hz3ws : allWsSpace ((joinWords (pywords (stripP isPyWs x))).map Char.toLower) := by
    intro c hc hwsc
    obtain ⟨c', hc', rfl⟩ := List.mem_map.mp hc
    rw [isPyWs_toLower] at hwsc
    rw [hz2ws c' hc' hwsc]
    exact toLower_space
  have hz3nd : noDoubleSpace ((joinWords (pywords (stripP isPyWs x))).map Char.toLower) := by
    show List.Chain' _ _
    rw [List.chain'_map]
    apply List.Chain'.imp _ hz2nd
    intro a b hab hcon
    exact hab ⟨(toLower_eq_space_iff a).mp hcon.1, (toLower_eq_space_iff b).mp hcon.2⟩
  have hz3fix : ∀ c ∈ (joinWords (pywords (stripP isPyWs x))).map Char.toLower,
      Char.toLower c = c := by
    intro c hc
    obtain ⟨c', _, rfl⟩ := List.mem_map.mp hc
    exact toLower_toLower c'
  have hinf : normalizeClaimL x <:+: (joinWords (pywords (stripP isPyWs x))).map Char.toLower :=
    stripP_infix _ _
  obtain ⟨s, t, hst⟩ := hinf
  refine ⟨?_, ?_, ?_, ?_, ?_⟩
  · intro c hc
    apply hz3ws c
    rw [← hst]
    exact List.mem_append_left _ (List.mem_append_right _ hc)
  · show List.Chain' _ _
    have hz := hz3nd
    rw [← hst] at hz
    exact hz.left_of_append.right_of_append
  · intro c hc
    apply hz3fix c
    rw [← hst]
    exact List.mem_append_left _ (List.mem_append_right _ hc)
  · intro c hc
    exact stripP_head?_false isClaimPunct _ c hc
  · intro c hc
    exact stripP_getLast?_false isClaimPunct _ c hc

theorem normalizeL_fixed (y : List Char)
    (hws : allWsSpace y) (hnd : noDoubleSpace y)
    (hfix : ∀ c ∈ y, Char.toLower c = c)
    (hp1 : ∀ c, y.head? = some c → isClaimPunct c = false)
    (hp2 : ∀ c, y.getLast? = some c → isClaimPunct c = false)
    (hw1 : ∀ c, y.head? = some c → isPyWs c = false)
    (hw2 : ∀ c, y.getLast? = some c → isPyWs c = false) :
    normalizeClaimL y = y := by
  show stripP isClaimPunct ((joinWords (pywords (stripP isPyWs y))).map Char.toLower) = y
  rw [stripP_eq_self isPyWs y hw1 hw2]
  rw [joinWords_pywords_fuel y.length y (Nat.le_refl _) hws hnd hw1 hw2]
  rw [map_toLower_fixed y hfix]
  exact stripP_eq_self isClaimPunct y hp1 hp2

theorem head?_some_imp {l : List Char} {d : Char} (h : l.head? = some d)
    (p : Char → Bool) (hp : p d = false) :
    ∀ c, l.head? = some c → p c = false := by
  intro c hc
  rw [h] at hc
  cases hc
  exact hp

theorem getLast?_some_imp {l : List Char} {d : Char} (h : l.getLast? = some d)
    (p : Char → Bool) (hp : p d = false) :
    ∀ c, l.getLast? = some c → p c = false := by
  intro c hc
  rw [h] at hc
  cases hc
  exact hp

/-- C6 (amended): `_normalize_claim` strips edge punctuation *after*
collapsing whitespace, so stripping can expose a fresh edge space and
normalization is not a projection in general; it is one exactly on
inputs whose normalized form has no leading or trailing whitespace:
for those, `normalize(normalize(x)) = normalize(x)`. -/
theorem c6_normalize_projection (x : String)
    (h1 : ∀ c, (normalizeClaim x).data.head? = some c → isPyWs c = false)
    (h2 : ∀ c, (normalizeClaim x).data.getLast? = some c → isPyWs c = false) :
    normalizeClaim (normalizeClaim x) = normalizeClaim x := by
  obtain ⟨hws, hnd, hfix, hp1, hp2⟩ := normalized_props x.data
  have hdata : (normalizeClaim x).data = normalizeClaimL x.data := rfl
  rw [hdata] at h1 h2
  show String.mk (normalizeClaimL (normalizeClaim x).data) = normalizeClaim x
  rw [hdata]
  rw [normalizeL_fixed (normalizeClaimL x.data) hws hnd hfix hp1 hp2 h1 h2]
  rfl

theorem c6_normalize_projection_witness :
    normalizeClaim (normalizeClaim "Hello,  World!") = normalizeClaim "Hello,  World!" :=
  c6_normalize_projection "Hello,  World!"
    (@head?_some_imp (normalizeClaim "Hello,  World!").data (Char.ofNat 104)
      (by decide) isPyWs (by decide))
    (@getLast?_some_imp (normalizeClaim "Hello,  World!").data (Char.ofNat 100)
      (by decide) isPyWs (by decide))

/-- C6 (counterexample): `normalize("a .") = "a "` (the trailing dot is
stripped, exposing a trailing space), while a second application yields
`"a"` — normalization is not a projection as claimed. -/
theorem c6_counterexample :
    normalizeClaim (normalizeClaim "a .") ≠ normalizeClaim "a ." := by
  decide

end Xio
